import Mathlib

/-!
Verification of the TURTLE elevation library's tile stack, client and
geodesy code against its natural-language specification.

The development shallowly embeds the C sources:
* `src/src/turtle_datum.c` — the tile stack (`struct turtle_datum`), the
  GDEM2 tile loader (`datum_tile_load`), eviction, stack clearing, the
  bilinear interpolation of `turtle_datum_elevation`, and the ECEF /
  geodetic coordinate conversions;
* the client source (`turtle_client_elevation`, `client_release`,
  `turtle_client_clear`, `turtle_client_destroy`) which manipulates the
  same stack under the caller-supplied lock callbacks.

C doubles are modelled as rationals (the claims under study only exercise
exact arithmetic: comparisons, truncation and field operations); the
transcendental libm calls of the geodesy code are abstracted as an
explicit record of operations.  C `int` values are modelled as `Int`
(no overflow is exercised by any claim).  The external GeoTIFF reader is
an oracle, keyed by the filename the loader formats, which either fails
with a return code or produces the decoded raster.  The caller-supplied
lock / unlock callbacks are modelled by booleans giving their outcome.
-/

namespace Turtle

/-- The `turtle_return` error codes of `include/turtle.h`. -/
inductive TRet where
  | success
  | badAddress
  | badExtensionCode
  | badFormat
  | badProjection
  | badJson
  | domainError
  | libraryError
  | lockError
  | memoryError
  | pathError
  | unlockError
deriving DecidableEq, Repr

/-- `INT_MIN`, the sentinel used for a client's `index_la` / `index_lo`
"last failed" fields (32-bit C `int`). -/
def intMin : Int := -2147483648

/-- C `(int)` cast of a `double`: truncation toward zero. -/
def cTrunc (q : ℚ) : Int := if 0 ≤ q then ⌊q⌋ else ⌈q⌉

/-- A decoded elevation tile (`struct datum_tile` of `turtle_datum.h`):
raster origin `(x0, y0)` and step `(dx, dy)` in degrees, grid dimensions
`nx, ny`, the pin count `clients`, and the flat row-major sample buffer
`z` (`int16_t z[]`, `nx*ny` entries, index `iy*nx+ix`).  `id` stands for
the C node's address, so that clients can refer to their pinned tile; the
intrusive `prev`/`next` links are represented by the tile's position in
the owning stack's list. -/
structure Tile where
  id : Nat
  x0 : ℚ
  y0 : ℚ
  dx : ℚ
  dy : ℚ
  nx : Int
  ny : Int
  clients : Int
  z : List Int
deriving DecidableEq, Repr

/-- The tile stack (`struct turtle_datum` / `turtle_stack`): the list of
loaded tiles with the head of the list at `datum->stack` (the most
recently used end), the `stack_size` counter, the `max_size` bound, and
whether lock/unlock callbacks are installed. -/
structure Stack where
  tiles : List Tile
  size : Int
  maxSize : Int
  hasLock : Bool
deriving DecidableEq, Repr

/-- A stack client (`struct turtle_client`): the pinned tile (by identity,
`NULL` = `none`) and the "known missing" integer-degree pair
`(index_la, index_lo)`, `INT_MIN` = sentinel. -/
structure Client where
  tile : Option Nat
  indexLa : Int
  indexLo : Int
deriving DecidableEq, Repr

/-- A stack together with the clients bound to it.  Operations act on the
client designated by its position in the list. -/
structure State where
  stack : Stack
  clients : List Client
deriving DecidableEq, Repr

/-- The identities of the tiles currently in the stack, MRU end first. -/
def idsOf (s : Stack) : List Nat := s.tiles.map (·.id)

/-- Look a tile up by identity (dereferencing a C tile pointer). -/
def findTile (s : Stack) (tid : Nat) : Option Tile :=
  s.tiles.find? (fun t => t.id == tid)

/-- Fractional x grid coordinate of a longitude inside a tile:
`hx = (longitude - tile->x0) / tile->dx`. -/
def hxOf (t : Tile) (lon : ℚ) : ℚ := (lon - t.x0) / t.dx

/-- Fractional y grid coordinate of a latitude inside a tile:
`hy = (latitude - tile->y0) / tile->dy`. -/
def hyOf (t : Tile) (lat : ℚ) : ℚ := (lat - t.y0) / t.dy

/-- The footprint test used by every lookup:
`hx >= 0 && hx <= nx && hy >= 0 && hy <= ny`. -/
def containsPt (t : Tile) (lat lon : ℚ) : Bool :=
  decide (0 ≤ hxOf t lon) && decide (hxOf t lon ≤ (t.nx : ℚ)) &&
    decide (0 ≤ hyOf t lat) && decide (hyOf t lat ≤ (t.ny : ℚ))

/-- Read the flat sample buffer at `zm[iy*nx + ix]`.  The C buffer holds
exactly `nx*ny` samples; an index outside `[0, nx*ny)` is an out-of-bounds
access (undefined behaviour in C), modelled as `none`. -/
def flatRead (t : Tile) (iy ix : Int) : Option ℚ :=
  let idx := iy * t.nx + ix
  if 0 ≤ idx ∧ idx < t.nx * t.ny then some ((t.z.getD idx.toNat 0 : Int) : ℚ)
  else none

/-- The interpolation tail shared verbatim by `turtle_datum_elevation`
(`turtle_datum.c:184-196`) and `turtle_client_elevation`: truncate
`(hx, hy)` to `(ix, iy)`, take the fractional parts, clamp the indices
below (only below: there is no `ix = nx-1` clamp above), saturate
`ix1`/`iy1` at `nx-1`/`ny-1`, and combine the four samples bilinearly.
`none` records that a sample read fell outside the buffer. -/
def interpolateCode (t : Tile) (hx hy : ℚ) : Option ℚ :=
  let ixt : Int := cTrunc hx
  let iyt : Int := cTrunc hy
  let fx : ℚ := hx - (ixt : ℚ)
  let fy : ℚ := hy - (iyt : ℚ)
  let ix : Int := if ixt < 0 then 0 else ixt
  let iy : Int := if iyt < 0 then 0 else iyt
  let ix1 : Int := if ix ≥ t.nx - 1 then t.nx - 1 else ix + 1
  let iy1 : Int := if iy ≥ t.ny - 1 then t.ny - 1 else iy + 1
  match flatRead t iy ix, flatRead t iy1 ix, flatRead t iy ix1, flatRead t iy1 ix1 with
  | some z00, some z01, some z10, some z11 =>
      some (z00 * (1 - fx) * (1 - fy) + z01 * (1 - fx) * fy +
        z10 * fx * (1 - fy) + z11 * fx * fy)
  | _, _, _, _ => none

/-- Total version of the interpolation used when composing the client's
control flow (the out-of-bounds case, undefined in C, is collapsed to 0;
no claim depends on the value there). -/
def interpValue (t : Tile) (hx hy : ℚ) : ℚ := (interpolateCode t hx hy).getD 0

/-- Sample access `z(ix, iy)` at a grid node, row-major as stored. -/
def nodeZ (t : Tile) (ix iy : Int) : ℚ := ((t.z.getD (iy * t.nx + ix).toNat 0 : Int) : ℚ)

/-- Modelled from the spec (§4.B), for comparison with `interpolateCode`:
`ix = clamp(⌊hx⌋, 0, nx-1)`, `iy = clamp(⌊hy⌋, 0, ny-1)`,
`ix1 = min(ix+1, nx-1)`, `iy1 = min(iy+1, ny-1)`, `fx = hx - ix`,
`fy = hy - iy`, then the bilinear combination — so only in-range sample
indices are read. -/
def specBilinear (t : Tile) (hx hy : ℚ) : ℚ :=
  let ix : Int := max 0 (min ⌊hx⌋ (t.nx - 1))
  let iy : Int := max 0 (min ⌊hy⌋ (t.ny - 1))
  let ix1 : Int := min (ix + 1) (t.nx - 1)
  let iy1 : Int := min (iy + 1) (t.ny - 1)
  let fx : ℚ := hx - (ix : ℚ)
  let fy : ℚ := hy - (iy : ℚ)
  nodeZ t ix iy * (1 - fx) * (1 - fy) + nodeZ t ix iy1 * (1 - fx) * fy +
    nodeZ t ix1 iy * fx * (1 - fy) + nodeZ t ix1 iy1 * fx * fy

/-- Move a tile to the top of the stack (`datum_tile_touch` /
`tile_touch`): a no-op when the tile is already the head
(`tile->next == NULL`), otherwise unlink it and relink it at the head. -/
def tileTouch (s : Stack) (tid : Nat) : Stack :=
  match s.tiles with
  | [] => s
  | h :: _ =>
    if h.id = tid then s
    else
      match s.tiles.find? (fun t => t.id == tid) with
      | none => s
      | some t => { s with tiles := t :: s.tiles.eraseP (fun u => u.id == tid) }

/-- Remove a tile from the stack and free it (`datum_tile_destroy` /
`tile_destroy`): unlink and decrement `stack_size`. -/
def tileDestroy (s : Stack) (tid : Nat) : Stack :=
  { s with tiles := s.tiles.eraseP (fun u => u.id == tid), size := s.size - 1 }

/-- Walk the whole stack destroying tiles (`datum_clear`): with `force`
every tile goes; without it only tiles whose pin count is 0.  Each
destroyed tile decrements `stack_size`. -/
def datumClear (s : Stack) (force : Bool) : Stack :=
  let kept := s.tiles.filter (fun t => !force && t.clients != 0)
  { s with
    tiles := kept
    size := s.size - ((s.tiles.length : Int) - (kept.length : Int)) }

/-- Stack destruction (`turtle_datum_destroy`): a forced clear, freeing
every tile regardless of its pin count, before the handle itself is
freed. -/
def datumDestroy (s : Stack) : Stack := datumClear s true

/-- The eviction walk of `datum_tile_load` on the LRU-first reversal of
the tile list: while tiles remain and `stack_size >= max_size`, advance
from the LRU end toward the head, destroying every tile whose pin count
is 0.  (When the stack is empty and `size >= max_size` the C code would
dereference a null `last` pointer; the model simply leaves the empty list
unchanged — no claim exercises that corner, which requires
`max_size <= 0`.) -/
def evictLoop (maxSize : Int) : List Tile → Int → List Tile × Int
  | [], size => ([], size)
  | t :: rest, size =>
    if maxSize ≤ size then
      if t.clients = 0 then evictLoop maxSize rest (size - 1)
      else
        let ev := evictLoop maxSize rest size
        (t :: ev.1, ev.2)
    else (t :: rest, size)

/-- What the external GeoTIFF16 reader decoded for one tile file:
an identity for the fresh allocation plus the raster
(`reader.width`, `reader.height`, the samples). -/
structure TilePayload where
  id : Nat
  nx : Int
  ny : Int
  z : List Int
deriving DecidableEq, Repr

/-- The external reader as an oracle keyed by the formatted filename:
`load_gdem2` either fails (`PATH_ERROR` when the file cannot be opened,
`MEMORY_ERROR` when the allocation fails, `BAD_FORMAT` when decoding
fails) or yields the decoded raster. -/
abbrev Loader := String → Except TRet TilePayload

/-- Zero-padded decimal rendering of width `w` (the `%02d` / `%03d`
conversions of the `sprintf` in `datum_tile_load`). -/
def padNum (w : Nat) (n : Nat) : String :=
  let s := toString n
  if w ≤ s.length then s
  else String.mk (List.replicate (w - s.length) '0') ++ s

/-- The filename `datum_tile_load` formats into the datum's buffer:
`sprintf(buffer, "ASTGTM2_%c%02d%c%03d_dem.tif", cL, absL, cl, absl)`
with `cL = (latitude >= 0) ? 'N' : 'S'` and
`cl = (longitude >= 0) ? 'E' : 'W'`. -/
def gdem2Name (lat lon : Int) : String :=
  "ASTGTM2_" ++ (if 0 ≤ lat then "N" else "S") ++ padNum 2 lat.natAbs ++
    (if 0 ≤ lon then "E" else "W") ++ padNum 3 lon.natAbs ++ "_dem.tif"

/-- Modelled from the spec (§4.C): the GDEM2 tile file name pattern
`ASTGTM2_{N|S}{LL:02}{E|W}{LLL:03}_dem.tif` with `LL = |lat|` and
`LLL = |lon|`, `N`/`S` and `E`/`W` chosen by the sign of the degree. -/
def specTileName (lat lon : Int) : String :=
  let ns := if 0 ≤ lat then "N" else "S"
  let ew := if 0 ≤ lon then "E" else "W"
  "ASTGTM2_" ++ ns ++ padNum 2 lat.natAbs ++ ew ++ padNum 3 lon.natAbs ++ "_dem.tif"

/-- Load a new tile and manage the stack (`datum_tile_load`): reject
out-of-domain integer degrees, consult the reader at the formatted
filename, initialise the fresh tile (`clients = 0`, `x0 = longitude`,
`y0 = latitude`, `dx = (nx > 1) ? 1/(nx-1) : 0`, likewise `dy`), run the
eviction walk when `stack_size >= max_size`, and append the new tile at
the head.  Errors leave the stack untouched (the C code returns before
any stack mutation). -/
def tileLoad (loader : Loader) (s : Stack) (lat lon : Int) : Stack × TRet :=
  if 180 < lon.natAbs ∨ 89 < lat.natAbs then (s, .domainError)
  else
    match loader (gdem2Name lat lon) with
    | .error rc => (s, rc)
    | .ok p =>
      let newTile : Tile :=
        { id := p.id, x0 := (lon : ℚ), y0 := (lat : ℚ),
          dx := if 1 < p.nx then 1 / ((p.nx : ℚ) - 1) else 0,
          dy := if 1 < p.ny then 1 / ((p.ny : ℚ) - 1) else 0,
          nx := p.nx, ny := p.ny, clients := 0, z := p.z }
      let s1 :=
        if s.maxSize ≤ s.size then
          let ev := evictLoop s.maxSize s.tiles.reverse s.size
          { s with tiles := ev.1.reverse, size := ev.2 }
        else s
      ({ s1 with tiles := newTile :: s1.tiles, size := s1.size + 1 }, .success)

/-- Update the tile of the given identity in place (writing through a C
tile pointer). -/
def mapTile (s : Stack) (tid : Nat) (f : Tile → Tile) : Stack :=
  { s with tiles := s.tiles.map (fun t => if t.id = tid then f t else t) }

/-- The body of `client_release` between the lock and the unlock: clear
`client->tile`, decrement the tile's pin count, on underflow snap the
count to 0 and fail with `LIBRARY_ERROR` (keeping the tile), otherwise
destroy the tile if its count reached 0 while the stack overflows
(`stack->size > stack->max_size`).  (The `findTile = none` case would be
a dangling pointer dereference in C; it is unreachable while every pinned
tile is in the stack, and the model leaves the stack unchanged there.) -/
def releaseCore (st : State) (i : Nat) : State × TRet :=
  match st.clients.get? i with
  | none => (st, .success)
  | some c =>
    match c.tile with
    | none => (st, .success)
    | some tid =>
      let cl := st.clients.set i { c with tile := none }
      match findTile st.stack tid with
      | none => (⟨st.stack, cl⟩, .success)
      | some t =>
        if t.clients - 1 < 0 then
          (⟨mapTile st.stack tid (fun u => { u with clients := 0 }), cl⟩, .libraryError)
        else
          let s1 := mapTile st.stack tid (fun u => { u with clients := u.clients - 1 })
          if t.clients - 1 = 0 ∧ st.stack.maxSize < st.stack.size then
            (⟨tileDestroy s1 tid, cl⟩, .success)
          else (⟨s1, cl⟩, .success)

/-- `client_release(client, lock)`: nothing to do without a pinned tile;
otherwise take the stack lock when `useLock` is set (failing with
`LOCK_ERROR`), run the release body, and release the lock (a failing
unlock callback replaces the result with `UNLOCK_ERROR`). -/
def clientRelease (lockOk unlockOk useLock : Bool) (st : State) (i : Nat) :
    State × TRet :=
  match st.clients.get? i with
  | none => (st, .success)
  | some c =>
    match c.tile with
    | none => (st, .success)
    | some _ =>
      if useLock && st.stack.hasLock && !lockOk then (st, .lockError)
      else
        let r := releaseCore st i
        if useLock && st.stack.hasLock && !unlockOk then (r.1, .unlockError)
        else r

/-- `turtle_client_clear`: a locked release of the pinned tile. -/
def clientClear (lockOk unlockOk : Bool) (st : State) (i : Nat) : State × TRet :=
  clientRelease lockOk unlockOk true st i

/-- `turtle_client_destroy`: a locked release, then — unless the lock or
unlock callback failed — the client itself is freed. -/
def clientDestroy (lockOk unlockOk : Bool) (st : State) (i : Nat) : State × TRet :=
  let r := clientRelease lockOk unlockOk true st i
  if r.2 = .lockError ∨ r.2 = .unlockError then r
  else ({ r.1 with clients := r.1.clients.eraseIdx i }, .success)

/-- What a `turtle_client_elevation` call produced: the return code, the
final contents of the `elevation` out-parameter (`none` = never written),
the final contents of the `inside` out-parameter (`none` = not provided),
and whether the lock callback and the tile loader were invoked. -/
structure ElevResult where
  rc : TRet
  elevation : Option ℚ
  insideOut : Option Int
  lockCalled : Bool
  loadCalled : Bool
deriving DecidableEq, Repr

/-- Initial value of the `inside` out-parameter:
`if (inside != NULL) *inside = 0`. -/
def insideInit (insideProvided : Bool) : Option Int :=
  if insideProvided then some 0 else none

/-- The stack walk of `turtle_client_elevation` under the lock: from the
head, skipping the client's own pinned tile (`current == client->tile`),
the first tile whose footprint contains the point. -/
def searchSkip (tiles : List Tile) (skip : Option Nat) (lat lon : ℚ) : Option Tile :=
  tiles.find? (fun t => !(some t.id == skip) && containsPt t lat lon)

/-- The `update:` block of `turtle_client_elevation`: release the
client's current pin with the in-lock release (aborting on its error),
then `current->clients++`, pin `current` and reset the known-missing
pair to the sentinel. -/
def elevUpdate (st : State) (i : Nat) (t : Tile) : State × TRet :=
  let r := releaseCore st i
  if r.2 ≠ .success then r
  else
    let s2 := mapTile r.1.stack t.id (fun u => { u with clients := u.clients + 1 })
    let cl2 := r.1.clients.set i { tile := some t.id, indexLa := intMin, indexLo := intMin }
    ((⟨s2, cl2⟩ : State), .success)

/-- The `unlock:` block and everything after it: a failing unlock
callback returns `UNLOCK_ERROR` at once (the interpolation is skipped and
the `elevation` out-parameter is left unwritten); otherwise a non-success
`rc` writes `*elevation = 0` and is returned, with `PATH_ERROR` demoted
to success when the `inside` out-parameter was provided; on success the
elevation is interpolated from `tl = (tile, hx, hy)` and `*inside` is set
to 1. -/
def elevFinish (unlockOk loadCalled hasLock insideProvided : Bool) (st : State)
    (rc : TRet) (tl : Option (Tile × ℚ × ℚ)) : State × ElevResult :=
  if hasLock && !unlockOk then
    (st, ⟨.unlockError, none, insideInit insideProvided, true, loadCalled⟩)
  else if rc = .success then
    match tl with
    | some (t, hx, hy) =>
        (st, ⟨.success, some (interpValue t hx hy),
          if insideProvided then some 1 else none, true, loadCalled⟩)
    | none => (st, ⟨.success, none, insideInit insideProvided, true, loadCalled⟩)
  else if rc = .pathError then
    (st, ⟨if insideProvided then .success else .pathError, some 0,
      insideInit insideProvided, true, loadCalled⟩)
  else (st, ⟨rc, some 0, insideInit insideProvided, true, loadCalled⟩)

/-- The locked part of `turtle_client_elevation` (after both fast paths
missed): acquire the lock, search the stack skipping the pinned tile
(touching a hit), otherwise call the tile loader for the truncated
integer-degree pair; a failed load releases the current pin in-lock
(its result is discarded by the C code) and records the pair as known
missing; a hit or a successful load runs the `update:` block on the tile;
finally the `unlock:` block. -/
def elevSlow (loader : Loader) (lockOk unlockOk : Bool) (st : State) (i : Nat)
    (c : Client) (lat lon : ℚ) (insideProvided : Bool) : State × ElevResult :=
  if st.stack.hasLock && !lockOk then
    (st, ⟨.lockError, none, insideInit insideProvided, true, false⟩)
  else
    match searchSkip st.stack.tiles c.tile lat lon with
    | some t =>
      let r := elevUpdate (⟨tileTouch st.stack t.id, st.clients⟩ : State) i t
      elevFinish unlockOk false st.stack.hasLock insideProvided r.1 r.2
        (some (t, hxOf t lon, hyOf t lat))
    | none =>
      let ld := tileLoad loader st.stack (cTrunc lat) (cTrunc lon)
      if ld.2 ≠ .success then
        let r := releaseCore (⟨ld.1, st.clients⟩ : State) i
        let st2 : State :=
          match r.1.clients.get? i with
          | some c2 =>
            ⟨r.1.stack, r.1.clients.set i
              { c2 with indexLa := cTrunc lat, indexLo := cTrunc lon }⟩
          | none => r.1
        elevFinish unlockOk true st.stack.hasLock insideProvided st2 ld.2 none
      else
        match ld.1.tiles with
        | t :: _ =>
          let r := elevUpdate (⟨ld.1, st.clients⟩ : State) i t
          elevFinish unlockOk true st.stack.hasLock insideProvided r.1 r.2
            (some (t, hxOf t lon, hyOf t lat))
        | [] =>
          elevFinish unlockOk true st.stack.hasLock insideProvided
            (⟨ld.1, st.clients⟩ : State) .libraryError none

/-- `turtle_client_elevation`: `*inside = 0` when provided; the no-lock
fast path interpolates inside the pinned tile's footprint; with no pinned
tile, a truncated coordinate pair equal to the recorded known-missing
pair returns at once (success with `inside = 0` when `inside` was
provided, `PATH_ERROR` otherwise); anything else proceeds to the locked
slow path. -/
def clientElevation (loader : Loader) (lockOk unlockOk : Bool) (st : State)
    (i : Nat) (lat lon : ℚ) (insideProvided : Bool) : State × ElevResult :=
  match st.clients.get? i with
  | none => (st, ⟨.success, none, insideInit insideProvided, false, false⟩)
  | some c =>
    match c.tile with
    | some tid =>
      match findTile st.stack tid with
      | some t =>
        if containsPt t lat lon then
          (st, ⟨.success, some (interpValue t (hxOf t lon) (hyOf t lat)),
            if insideProvided then some 1 else none, false, false⟩)
        else elevSlow loader lockOk unlockOk st i c lat lon insideProvided
      | none => elevSlow loader lockOk unlockOk st i c lat lon insideProvided
    | none =>
      if cTrunc lat = c.indexLa ∧ cTrunc lon = c.indexLo then
        (st, ⟨(if insideProvided then .success else .pathError), none,
          insideInit insideProvided, false, false⟩)
      else elevSlow loader lockOk unlockOk st i c lat lon insideProvided

/-- How many clients currently pin the tile of the given identity. -/
def pinsOf (st : State) (tid : Nat) : Nat :=
  st.clients.countP (fun c => decide (c.tile = some tid))

/-- The pin accounting invariant (§8 of the spec): every tile held by the
stack has its `clients` field equal to the number of clients whose pinned
tile it is. -/
def pinAccounting (st : State) : Prop :=
  ∀ t ∈ st.stack.tiles, t.clients = (pinsOf st t.id : Int)

/-- Whether a client's pinned tile (if any) is a tile of the stack. -/
def pinnedInStack (s : Stack) (c : Client) : Bool :=
  match c.tile with
  | none => true
  | some tid => decide (tid ∈ idsOf s)

/-- Every client's pinned tile belongs to the owning stack's list (§3 of
the spec, the Client invariant). -/
def pinsPresent (st : State) : Prop :=
  ∀ c ∈ st.clients, pinnedInStack st.stack c = true

/-- The well-formedness carried through every operation: pin accounting
plus presence of all pinned tiles. -/
def Wf (st : State) : Prop := pinAccounting st ∧ pinsPresent st

/-- The `stack_size` field agrees with the length of the tile list. -/
def sizeOk (s : Stack) : Prop := s.size = (s.tiles.length : Int)

/-- Number of tiles with a strictly positive pin count. -/
def pinnedCount (s : Stack) : Nat :=
  (s.tiles.filter (fun t => 0 < t.clients)).length

/-- Final path component: everything after the last `/` (`strrchr`), the
whole path when it has no `/`. -/
def basenameOf (path : String) : String :=
  String.mk (path.toList.foldl (fun acc c => if c = '/' then [] else acc ++ [c]) [])

/-- `turtle_datum_create`: reject when exactly one of the lock/unlock
callbacks is given (`BAD_ADDRESS`); compare the path's basename against
the format table (`{"ASTGTM2"}`), rejecting any other basename with
`BAD_FORMAT` before the allocation; a failing allocation yields
`MEMORY_ERROR`; otherwise the datum starts with an empty stack and
`size = 0`. -/
def turtleDatumCreate (path : String) (stackSize : Int)
    (lockPresent unlockPresent mallocOk : Bool) : Except TRet Stack :=
  if (!lockPresent && unlockPresent) || (!unlockPresent && lockPresent) then
    .error .badAddress
  else if basenameOf path ≠ "ASTGTM2" then .error .badFormat
  else if !mallocOk then .error .memoryError
  else .ok { tiles := [], size := 0, maxSize := stackSize, hasLock := lockPresent }

/-- The libm calls of the geodesy code, abstracted: the model is
parametric in the meaning of `sqrt`, `atan`, `atan2` and the constant
`M_PI`, so every theorem below about branch structure and the exact
expressions holds for any interpretation of them. -/
structure RealOps (F : Type) where
  sqrt : F → F
  atan : F → F
  atan2 : F → F → F
  pi : F

/-- WGS84 semi-major axis (`A[DATUM_FORMAT_ASTER_GDEM2] = 6378137.0`). -/
def wgs84A {F : Type} [LinearOrderedField F] : F := 6378137

/-- WGS84 eccentricity (`E[DATUM_FORMAT_ASTER_GDEM2] = 0.081819190842622`,
an exact decimal literal in the source). -/
def wgs84E {F : Type} [LinearOrderedField F] : F := 81819190842622 / 1000000000000000

/-- Geodetic coordinates as returned through the three out-parameters of
`turtle_datum_geodetic`. -/
structure GeoCoord (F : Type) where
  lat : F
  lon : F
  elev : F
deriving DecidableEq, Repr

/-- C `fabs`. -/
def cAbs {F : Type} [LinearOrderedField F] (x : F) : F := if x < 0 then -x else x

/-- The general branch of `turtle_datum_geodetic`: B. R. Bowring's 1985
single-iteration algorithm, written out exactly as in the source. -/
def bowringGeodetic {F : Type} [LinearOrderedField F] (ops : RealOps F)
    (x y z : F) : GeoCoord F :=
  let a : F := wgs84A
  let e : F := wgs84E
  let b2 := a * a * (1 - e * e)
  let b := ops.sqrt b2
  let eb2 := e * e * a * a / b2
  let lon := ops.atan2 y x * 180 / ops.pi
  let p2 := x * x + y * y
  let p := ops.sqrt p2
  let r := ops.sqrt (p2 + z * z)
  let tu := b * z * (1 + eb2 * b / r) / (a * p)
  let cu := 1 / ops.sqrt (1 + tu * tu)
  let su := cu * tu
  let tp := (z + eb2 * b * su * su * su) / (p - e * e * a * cu * cu * cu)
  let lat := ops.atan tp * 180 / ops.pi
  let cp := 1 / ops.sqrt (1 + tp * tp)
  let sp := cp * tp
  ⟨lat, lon, p * cp + z * sp - a * ops.sqrt (1 - e * e * sp * sp)⟩

/-- `turtle_datum_geodetic` for the GDEM2 ellipsoid: the `x = y = 0`
special case (latitude `+90` when `z >= 0`, else `-90`, longitude 0,
elevation `|z| - b`), the `z = 0` special case (latitude 0, elevation
`p - a`), and otherwise the single-iteration Bowring computation. -/
def ecefToGeodetic {F : Type} [LinearOrderedField F] (ops : RealOps F)
    (x y z : F) : GeoCoord F :=
  let a : F := wgs84A
  let e : F := wgs84E
  let b2 := a * a * (1 - e * e)
  let b := ops.sqrt b2
  let eb2 := e * e * a * a / b2
  if x = 0 ∧ y = 0 then ⟨if 0 ≤ z then 90 else -90, 0, cAbs z - b⟩
  else
    let lon := ops.atan2 y x * 180 / ops.pi
    let p2 := x * x + y * y
    let p := ops.sqrt p2
    if z = 0 then ⟨0, lon, p - a⟩
    else
      let r := ops.sqrt (p2 + z * z)
      let tu := b * z * (1 + eb2 * b / r) / (a * p)
      let cu := 1 / ops.sqrt (1 + tu * tu)
      let su := cu * tu
      let tp := (z + eb2 * b * su * su * su) / (p - e * e * a * cu * cu * cu)
      let lat := ops.atan tp * 180 / ops.pi
      let cp := 1 / ops.sqrt (1 + tp * tp)
      let sp := cp * tp
      ⟨lat, lon, p * cp + z * sp - a * ops.sqrt (1 - e * e * sp * sp)⟩

/-- A concrete interpretation of the libm operations over ℚ, used by the
witnesses (the theorems hold for every interpretation). -/
def demoOps : RealOps ℚ := ⟨fun q => q, fun q => q, fun a b => a + b, 3⟩

/-- C9: for every input with `x = y = 0` the conversion returns latitude
`+90` when `z >= 0` and `-90` otherwise, longitude 0 and elevation
`|z| - b` with `b = sqrt(a^2(1-e^2))` the polar radius; for every input
with `x`, `y` not both zero and `z = 0` it returns latitude 0 and
elevation `sqrt(x^2+y^2) - a`; every other input is computed by the
single-iteration Bowring (1985) formula. -/
theorem claim9 {F : Type} [LinearOrderedField F] (ops : RealOps F) (x y z : F) :
    (x = 0 → y = 0 →
      ecefToGeodetic ops x y z =
        ⟨if 0 ≤ z then 90 else -90, 0,
          cAbs z - ops.sqrt (wgs84A * wgs84A * (1 - wgs84E * wgs84E))⟩) ∧
    (¬(x = 0 ∧ y = 0) → z = 0 →
      (ecefToGeodetic ops x y z).lat = 0 ∧
        (ecefToGeodetic ops x y z).elev = ops.sqrt (x * x + y * y) - wgs84A) ∧
    (¬(x = 0 ∧ y = 0) → z ≠ 0 →
      ecefToGeodetic ops x y z = bowringGeodetic ops x y z) := by
  refine ⟨?_, ?_, ?_⟩
  · rintro rfl rfl
    simp [ecefToGeodetic]
  · intro hxy hz
    subst hz
    simp [ecefToGeodetic, hxy]
  · intro hxy hz
    simp [ecefToGeodetic, bowringGeodetic, hxy, hz]

/-- Witness for C9 at the poles and on the equatorial plane. -/
theorem claim9_witness :
    ecefToGeodetic demoOps 0 0 5 =
      ⟨90, 0, cAbs 5 - demoOps.sqrt (wgs84A * wgs84A * (1 - wgs84E * wgs84E))⟩ ∧
    (ecefToGeodetic demoOps 3 4 0).lat = 0 ∧
    (ecefToGeodetic demoOps 3 4 0).elev = demoOps.sqrt (3 * 3 + 4 * 4) - wgs84A := by
  refine ⟨?_, ?_⟩
  · have h := (claim9 demoOps 0 0 5).1 rfl rfl
    rw [h]
    norm_num
  · exact (claim9 demoOps 3 4 0).2.1 (by norm_num) rfl

/-- C10: `turtle_datum_create` succeeds only when the path's basename
(the part after the last `/`) is exactly `ASTGTM2`; with consistent
lock/unlock callbacks any other basename — including the empty basename
of a path ending in `/` — is rejected with `BAD_FORMAT` regardless of
whether the allocation would succeed (it is never attempted). -/
theorem claim10 (path : String) (stackSize : Int)
    (lockPresent unlockPresent mallocOk : Bool)
    (hcb : lockPresent = unlockPresent) :
    (∀ s, turtleDatumCreate path stackSize lockPresent unlockPresent mallocOk =
        .ok s → basenameOf path = "ASTGTM2") ∧
    (basenameOf path ≠ "ASTGTM2" →
      turtleDatumCreate path stackSize lockPresent unlockPresent mallocOk =
        .error .badFormat) := by
  subst hcb
  constructor
  · intro s hs
    by_contra hbn
    cases lockPresent <;> cases mallocOk <;>
      simp [turtleDatumCreate, hbn] at hs
  · intro hbn
    cases lockPresent <;> simp [turtleDatumCreate, hbn]

/-- Witness for C10: a directory path ending in `/` has the empty
basename and is rejected, and a good path is accepted. -/
theorem claim10_witness :
    turtleDatumCreate "data/ASTGTM2/" 4 true true true = .error .badFormat ∧
    basenameOf "data/ASTGTM2" = "ASTGTM2" := by
  constructor
  · exact (claim10 "data/ASTGTM2/" 4 true true true rfl).2 (by decide)
  · decide

/-- C6: the tile loader rejects `|lon| > 180` or `|lat| > 89` with
`DOMAIN_ERROR`, leaving the stack untouched; on a successful read (of a
raster with at least two rows and columns, as for GDEM2) it constructs
the new tile at the head with `x0 = lon`, `y0 = lat`, `dx = 1/(nx-1)`,
`dy = 1/(ny-1)` and pin count 0; and the filename it consults the reader
at is exactly the spec's `ASTGTM2_{N|S}{LL:02}{E|W}{LLL:03}_dem.tif`
pattern. -/
theorem claim6 (loader : Loader) (s : Stack) (lat lon : Int) (p : TilePayload) :
    ((180 < lon.natAbs ∨ 89 < lat.natAbs) →
      tileLoad loader s lat lon = (s, .domainError)) ∧
    (lon.natAbs ≤ 180 → lat.natAbs ≤ 89 →
      loader (gdem2Name lat lon) = .ok p → 1 < p.nx → 1 < p.ny →
      (tileLoad loader s lat lon).2 = .success ∧
      ∃ rest, (tileLoad loader s lat lon).1.tiles =
        ({ id := p.id, x0 := (lon : ℚ), y0 := (lat : ℚ),
           dx := 1 / ((p.nx : ℚ) - 1), dy := 1 / ((p.ny : ℚ) - 1),
           nx := p.nx, ny := p.ny, clients := 0, z := p.z } : Tile) :: rest) ∧
    gdem2Name lat lon = specTileName lat lon := by
  refine ⟨?_, ?_, ?_⟩
  · intro h
    simp [tileLoad, h]
  · intro h1 h2 hld hnx hny
    have hdom : ¬(180 < lon.natAbs ∨ 89 < lat.natAbs) := by omega
    constructor
    · simp only [tileLoad, if_neg hdom, hld]
    · simp only [tileLoad, if_neg hdom, hld, if_pos hnx, if_pos hny]
      split <;> exact ⟨_, rfl⟩
  · simp [gdem2Name, specTileName]

/-- Witness for C6: the domain rejection at `lon = 181` and a successful
load of a 3601x3601 GDEM2 raster at `(45, 3)`. -/
theorem claim6_witness :
    tileLoad (fun _ => .ok ⟨7, 3601, 3601, []⟩) ⟨[], 0, 4, true⟩ 45 181 =
      (⟨[], 0, 4, true⟩, .domainError) ∧
    (tileLoad (fun _ => .ok ⟨7, 3601, 3601, []⟩) ⟨[], 0, 4, true⟩ 45 3).2 =
      .success ∧
    gdem2Name 45 3 = "ASTGTM2_N45E003_dem.tif" := by
  refine ⟨?_, ?_, ?_⟩
  · exact (claim6 (fun _ => .ok ⟨7, 3601, 3601, []⟩) ⟨[], 0, 4, true⟩ 45 181
      ⟨7, 3601, 3601, []⟩).1 (by decide)
  · exact ((claim6 (fun _ => .ok ⟨7, 3601, 3601, []⟩) ⟨[], 0, 4, true⟩ 45 3
      ⟨7, 3601, 3601, []⟩).2.1 (by decide) (by decide) rfl (by decide) (by decide)).1
  · have h := (claim6 (fun _ => .ok (⟨7, 3601, 3601, []⟩ : TilePayload))
      ⟨[], 0, 4, true⟩ 45 3 ⟨7, 3601, 3601, []⟩).2.2
    rw [h]
    decide

theorem findTile_mem {s : Stack} {tid : Nat} {t : Tile}
    (ht : findTile s tid = some t) : t ∈ s.tiles :=
  List.mem_of_find?_eq_some ht

theorem findTile_id {s : Stack} {tid : Nat} {t : Tile}
    (ht : findTile s tid = some t) : t.id = tid := by
  have := List.find?_some ht
  simpa using this

theorem mapTile_tiles (s : Stack) (tid : Nat) (f : Tile → Tile) :
    (mapTile s tid f).tiles =
      s.tiles.map (fun t => if t.id = tid then f t else t) := rfl

theorem idsOf_mapTile (s : Stack) (tid : Nat) (f : Tile → Tile)
    (hf : ∀ t, (f t).id = t.id) : idsOf (mapTile s tid f) = idsOf s := by
  simp only [idsOf, mapTile_tiles, List.map_map]
  refine List.map_congr_left (fun t _ => ?_)
  by_cases h : t.id = tid <;> simp [h, hf]

theorem releaseCore_eq {st : State} {i : Nat} {c : Client} {tid : Nat} {t : Tile}
    (hc : st.clients.get? i = some c) (hpin : c.tile = some tid)
    (ht : findTile st.stack tid = some t) :
    releaseCore st i =
      if t.clients - 1 < 0 then
        ((⟨mapTile st.stack tid (fun u => { u with clients := 0 }),
           st.clients.set i { c with tile := none }⟩ : State), .libraryError)
      else if t.clients - 1 = 0 ∧ st.stack.maxSize < st.stack.size then
        ((⟨tileDestroy
            (mapTile st.stack tid (fun u => { u with clients := u.clients - 1 })) tid,
           st.clients.set i { c with tile := none }⟩ : State), .success)
      else
        ((⟨mapTile st.stack tid (fun u => { u with clients := u.clients - 1 }),
           st.clients.set i { c with tile := none }⟩ : State), .success) := by
  simp only [releaseCore, hc, hpin, ht]

theorem releaseCore_noPin {st : State} {i : Nat} {c : Client}
    (hc : st.clients.get? i = some c) (hpin : c.tile = none) :
    releaseCore st i = (st, .success) := by
  simp only [releaseCore, hc, hpin]

theorem releaseCore_noClient {st : State} {i : Nat}
    (hc : st.clients.get? i = none) : releaseCore st i = (st, .success) := by
  simp only [releaseCore, hc]

theorem clientRelease_ok_eq {st : State} {i : Nat} {c : Client} {tid : Nat}
    (hc : st.clients.get? i = some c) (hpin : c.tile = some tid) :
    clientRelease true true true st i = releaseCore st i := by
  simp only [clientRelease, hc, hpin, Bool.not_true, Bool.and_false,
    Bool.false_eq_true, if_false]

/-- C8: in `client_release`, when the pinned tile's count would go
negative the count is snapped to 0, the call fails with `LIBRARY_ERROR`
and the tile is not destroyed; otherwise the decrement succeeds and every
tile still in the stack with the released identity carries the
non-negative count `clients - 1` (the callbacks succeeding, and tile
identities being distinct as C node addresses are). -/
theorem claim8 (st : State) (i : Nat) (c : Client) (tid : Nat) (t : Tile)
    (hc : st.clients.get? i = some c) (hpin : c.tile = some tid)
    (ht : findTile st.stack tid = some t) (hnd : (idsOf st.stack).Nodup) :
    (t.clients ≤ 0 →
      clientRelease true true true st i =
        ((⟨mapTile st.stack tid (fun u => { u with clients := 0 }),
           st.clients.set i { c with tile := none }⟩ : State), .libraryError) ∧
      tid ∈ idsOf (clientRelease true true true st i).1.stack) ∧
    (0 < t.clients →
      (clientRelease true true true st i).2 = .success ∧
      ∀ u ∈ (clientRelease true true true st i).1.stack.tiles,
        u.id = tid → u.clients = t.clients - 1 ∧ 0 ≤ u.clients) := by
  have hmem : t ∈ st.stack.tiles := findTile_mem ht
  have htid : t.id = tid := findTile_id ht
  have hinj := List.inj_on_of_nodup_map (f := fun u : Tile => u.id) hnd
  rw [clientRelease_ok_eq hc hpin, releaseCore_eq hc hpin ht]
  constructor
  · intro hneg
    rw [if_pos (by omega)]
    refine ⟨rfl, ?_⟩
    show tid ∈ idsOf (mapTile st.stack tid (fun u => { u with clients := 0 }))
    rw [idsOf_mapTile st.stack tid (fun u => { u with clients := 0 })
      (fun u => rfl)]
    exact htid ▸ List.mem_map_of_mem _ hmem
  · intro hpos
    rw [if_neg (by omega)]
    have key : ∀ u ∈ (mapTile st.stack tid
        (fun v => { v with clients := v.clients - 1 })).tiles,
        u.id = tid → u.clients = t.clients - 1 ∧ 0 ≤ u.clients := by
      intro u hu hutid
      rw [mapTile_tiles] at hu
      obtain ⟨v, hv, rfl⟩ := List.mem_map.mp hu
      by_cases hvid : v.id = tid
      · have hvt : v = t := hinj hv hmem (by rw [hvid, htid])
        rw [if_pos hvid]
        constructor
        · show v.clients - 1 = t.clients - 1
          rw [hvt]
        · show (0 : Int) ≤ v.clients - 1
          rw [hvt]
          omega
      · rw [if_neg hvid] at hutid ⊢
        exact absurd hutid hvid
    split
    · exact ⟨rfl, fun u hu => key u (List.mem_of_mem_eraseP hu)⟩
    · exact ⟨rfl, key⟩

/-- Witness for C8: a client pinning a tile whose count is already 0 (the
library-bug state) is poisoned, and a client pinning a tile with count 2
decrements it to 1. -/
theorem claim8_witness :
    clientRelease true true true
        (⟨⟨[⟨1, 0, 0, 1, 1, 2, 2, 0, []⟩], 1, 4, true⟩,
          [⟨some 1, intMin, intMin⟩]⟩ : State) 0 =
      ((⟨mapTile ⟨[⟨1, 0, 0, 1, 1, 2, 2, 0, []⟩], 1, 4, true⟩ 1
          (fun u => { u with clients := 0 }),
        [⟨some 1, intMin, intMin⟩].set 0 ⟨none, intMin, intMin⟩⟩ : State),
        .libraryError) ∧
    (clientRelease true true true
        (⟨⟨[⟨1, 0, 0, 1, 1, 2, 2, 2, []⟩], 1, 4, true⟩,
          [⟨some 1, intMin, intMin⟩]⟩ : State) 0).2 = .success := by
  constructor
  · exact ((claim8
      (⟨⟨[⟨1, 0, 0, 1, 1, 2, 2, 0, []⟩], 1, 4, true⟩,
        [⟨some 1, intMin, intMin⟩]⟩ : State) 0
      ⟨some 1, intMin, intMin⟩ 1 ⟨1, 0, 0, 1, 1, 2, 2, 0, []⟩
      rfl rfl rfl (by decide)).1 (by decide)).1
  · exact ((claim8
      (⟨⟨[⟨1, 0, 0, 1, 1, 2, 2, 2, []⟩], 1, 4, true⟩,
        [⟨some 1, intMin, intMin⟩]⟩ : State) 0
      ⟨some 1, intMin, intMin⟩ 1 ⟨1, 0, 0, 1, 1, 2, 2, 2, []⟩
      rfl rfl rfl (by decide)).2 (by decide)).1

/-- C5: the interpolation of the source clamps the truncated index only
below (`if (ix < 0) ix = 0`), not above.  On the 2x3 tile with samples
`[1,2,3,4,5,6]` (so `z(0,0)=1, z(1,0)=2, z(0,1)=3, z(1,1)=4`), the
boundary point `hx = nx = 2, hy = 0` — admitted by the inclusive
footprint test `hx <= nx` — makes the code read the flat buffer at
`iy*nx + ix = 2`, i.e. sample `z(0,1)` of the NEXT row, with full weight
(`fx = 0`), returning 3, where the spec's clamped formula returns the
edge sample 2; and at `hy = ny = 3, hx = 0` the code's read
`zm[iy*nx+ix] = zm[6]` falls outside the `nx*ny = 6`-sample buffer
entirely (an out-of-bounds access, undefined behaviour in C). -/
theorem claim5 :
    interpolateCode ⟨1, 0, 0, 1, 1, 2, 3, 0, [1, 2, 3, 4, 5, 6]⟩ 2 0 = some 3 ∧
    specBilinear ⟨1, 0, 0, 1, 1, 2, 3, 0, [1, 2, 3, 4, 5, 6]⟩ 2 0 = 2 ∧
    interpolateCode ⟨1, 0, 0, 1, 1, 2, 3, 0, [1, 2, 3, 4, 5, 6]⟩ 0 3 = none := by
  refine ⟨?_, ?_, ?_⟩
  · unfold interpolateCode cTrunc flatRead
    norm_num
    all_goals simp
  · unfold specBilinear nodeZ
    norm_num
  · unfold interpolateCode cTrunc flatRead
    norm_num

theorem evictLoop_nil (m size : Int) : evictLoop m [] size = ([], size) := rfl

theorem evictLoop_cons (m : Int) (a : Tile) (rest : List Tile) (size : Int) :
    evictLoop m (a :: rest) size =
      if m ≤ size then
        if a.clients = 0 then evictLoop m rest (size - 1)
        else (a :: (evictLoop m rest size).1, (evictLoop m rest size).2)
      else (a :: rest, size) := rfl

theorem evictLoop_subset {m : Int} :
    ∀ (l : List Tile) (size : Int) (u : Tile),
      u ∈ (evictLoop m l size).1 → u ∈ l := by
  intro l
  induction l with
  | nil =>
    intro size u h
    simpa [evictLoop_nil] using h
  | cons t rest ih =>
    intro size u h
    rw [evictLoop_cons] at h
    split at h
    · split at h
      · exact List.mem_cons_of_mem _ (ih _ u h)
      · rcases List.mem_cons.mp h with h' | h'
        · exact h' ▸ List.mem_cons_self _ _
        · exact List.mem_cons_of_mem _ (ih _ u h')
    · exact h

theorem evictLoop_keeps_pinned {m : Int} :
    ∀ (l : List Tile) (size : Int) (t : Tile),
      t ∈ l → t.clients ≠ 0 → t ∈ (evictLoop m l size).1 := by
  intro l
  induction l with
  | nil =>
    intro size t h _
    exact absurd h (List.not_mem_nil t)
  | cons a rest ih =>
    intro size t h hcl
    rw [evictLoop_cons]
    split
    · split
      · rename_i hz
        rcases List.mem_cons.mp h with rfl | h'
        · exact absurd hz hcl
        · exact ih _ t h' hcl
      · rcases List.mem_cons.mp h with rfl | h'
        · exact List.mem_cons_self _ _
        · exact List.mem_cons_of_mem _ (ih _ t h' hcl)
    · exact h

theorem evictLoop_size {m : Int} :
    ∀ (l : List Tile) (size : Int),
      (evictLoop m l size).2 - ((evictLoop m l size).1.length : Int) =
        size - (l.length : Int) := by
  intro l
  induction l with
  | nil =>
    intro size
    simp [evictLoop_nil]
  | cons a rest ih =>
    intro size
    rw [evictLoop_cons]
    split
    · split
      · have h1 := ih (size - 1)
        simp only [List.length_cons]
        push_cast at h1 ⊢
        omega
      · have h1 := ih size
        simp only [List.length_cons]
        push_cast at h1 ⊢
        omega
    · simp

theorem evictLoop_post {m : Int} :
    ∀ (l : List Tile) (size : Int),
      (evictLoop m l size).2 < m ∨ ∀ u ∈ (evictLoop m l size).1, u.clients ≠ 0 := by
  intro l
  induction l with
  | nil =>
    intro size
    right
    simp [evictLoop_nil]
  | cons a rest ih =>
    intro size
    rw [evictLoop_cons]
    split
    · split
      · exact ih (size - 1)
      · rename_i hcl
        rcases ih size with h | h
        · exact Or.inl h
        · right
          intro u hu
          rcases List.mem_cons.mp hu with rfl | hu'
          · exact hcl
          · exact h u hu'
    · rename_i hsz
      left
      omega

theorem datumClear_keeps_pinned {s : Stack} {t : Tile}
    (ht : t ∈ s.tiles) (hcl : 0 < t.clients) : t ∈ (datumClear s false).tiles := by
  simp only [datumClear]
  refine List.mem_filter.mpr ⟨ht, ?_⟩
  simp only [Bool.not_false, Bool.true_and, bne_iff_ne, ne_eq]
  omega

theorem tileLoad_keeps_pinned {loader : Loader} {s : Stack} {lat lon : Int}
    {t : Tile} (ht : t ∈ s.tiles) (hcl : 0 < t.clients) :
    t ∈ (tileLoad loader s lat lon).1.tiles := by
  simp only [tileLoad]
  split
  · exact ht
  · cases hld : loader (gdem2Name lat lon) with
    | error rc => simpa [hld] using ht
    | ok p =>
      simp only [hld]
      refine List.mem_cons_of_mem _ ?_
      split
      · simp only [List.mem_reverse]
        exact evictLoop_keeps_pinned _ _ t (List.mem_reverse.mpr ht) (by omega)
      · exact ht

theorem clientRelease_noClient {st : State} {i : Nat}
    (hc : st.clients.get? i = none) :
    clientRelease true true true st i = (st, .success) := by
  simp only [clientRelease, hc]

theorem clientRelease_noPin {st : State} {i : Nat} {c : Client}
    (hc : st.clients.get? i = some c) (hpin : c.tile = none) :
    clientRelease true true true st i = (st, .success) := by
  simp only [clientRelease, hc, hpin]

theorem releaseCore_noFind {st : State} {i : Nat} {c : Client} {tid : Nat}
    (hc : st.clients.get? i = some c) (hpin : c.tile = some tid)
    (ht : findTile st.stack tid = none) :
    releaseCore st i =
      ((⟨st.stack, st.clients.set i { c with tile := none }⟩ : State), .success) := by
  simp only [releaseCore, hc, hpin, ht]

/-- C2 (amended): no operation other than stack destruction frees a tile
with a positive pin count — the soft stack clear keeps it, the eviction
scan of the tile loader keeps it, and the internal client release can
only free the released tile itself and only when its count reaches 0
(a tile the released client does not pin, or one pinned at least twice,
survives); stack destruction, however, frees every tile regardless of
its pin count. -/
theorem claim2 (loader : Loader) (s : Stack) (lat lon : Int) (st : State)
    (i : Nat) (t : Tile) (hnd : (idsOf st.stack).Nodup) :
    (t ∈ s.tiles → 0 < t.clients → t ∈ (datumClear s false).tiles) ∧
    (t ∈ s.tiles → 0 < t.clients → t ∈ (tileLoad loader s lat lon).1.tiles) ∧
    (t ∈ st.stack.tiles → 0 < t.clients →
      ((∀ c, st.clients.get? i = some c → c.tile ≠ some t.id) ∨ 2 ≤ t.clients) →
      t.id ∈ idsOf (clientRelease true true true st i).1.stack) ∧
    (datumDestroy s).tiles = [] := by
  refine ⟨datumClear_keeps_pinned, tileLoad_keeps_pinned, ?_, ?_⟩
  · intro hmem hcl hside
    have hid : t.id ∈ idsOf st.stack := List.mem_map_of_mem _ hmem
    cases hc : st.clients.get? i with
    | none => rw [clientRelease_noClient hc]; exact hid
    | some c =>
      cases hpin : c.tile with
      | none => rw [clientRelease_noPin hc hpin]; exact hid
      | some tid =>
        rw [clientRelease_ok_eq hc hpin]
        cases ht : findTile st.stack tid with
        | none => rw [releaseCore_noFind hc hpin ht]; exact hid
        | some t' =>
          rw [releaseCore_eq hc hpin ht]
          have htid' : t'.id = tid := findTile_id ht
          have hmem' : t' ∈ st.stack.tiles := findTile_mem ht
          have hinj := List.inj_on_of_nodup_map (f := fun u : Tile => u.id) hnd
          split
          · rw [idsOf_mapTile st.stack tid (fun u => { u with clients := 0 })
              (fun u => rfl)]
            exact hid
          · split
            · rename_i hdz
              by_cases hteq : t.id = tid
              · obtain rfl : t = t' := hinj hmem hmem' (by rw [hteq, htid'])
                rcases hside with hnp | h2
                · exact absurd hpin (by rw [hteq] at hnp; exact hnp c hc)
                · omega
              · have htm : t ∈ (mapTile st.stack tid
                    (fun u => { u with clients := u.clients - 1 })).tiles := by
                  rw [mapTile_tiles]
                  have hmm := List.mem_map_of_mem
                    (fun u : Tile =>
                      if u.id = tid then { u with clients := u.clients - 1 } else u)
                    hmem
                  simpa [hteq] using hmm
                have hte : t ∈ (tileDestroy (mapTile st.stack tid
                    (fun u => { u with clients := u.clients - 1 })) tid).tiles := by
                  simp only [tileDestroy]
                  exact (List.mem_eraseP_of_neg (by simp [hteq])).mpr htm
                exact List.mem_map_of_mem _ hte
            · rw [idsOf_mapTile st.stack tid
                (fun u => { u with clients := u.clients - 1 }) (fun u => rfl)]
              exact hid
  · simp [datumDestroy, datumClear]

/-- Counterexample to C2 as frozen: the claim quantifies over "any
operation", but stack destruction (`turtle_datum_destroy`, a forced
`datum_clear`) frees a tile whose pin count is 1. -/
theorem claim2_counter :
    (0 : Int) < (⟨1, 0, 0, 1, 1, 2, 2, 1, []⟩ : Tile).clients ∧
    (⟨1, 0, 0, 1, 1, 2, 2, 1, []⟩ : Tile) ∈
      (⟨[⟨1, 0, 0, 1, 1, 2, 2, 1, []⟩], 1, 4, true⟩ : Stack).tiles ∧
    (datumDestroy ⟨[⟨1, 0, 0, 1, 1, 2, 2, 1, []⟩], 1, 4, true⟩).tiles = [] := by
  refine ⟨by decide, List.mem_singleton_self _, by simp [datumDestroy, datumClear]⟩

/-- Witness for C2: a pinned tile survives both a soft clear and a
loading eviction scan on a full stack (`max_size = 1`). -/
theorem claim2_witness :
    (⟨1, 0, 0, 1, 1, 2, 2, 1, []⟩ : Tile) ∈
      (datumClear ⟨[⟨1, 0, 0, 1, 1, 2, 2, 1, []⟩], 1, 1, true⟩ false).tiles ∧
    (⟨1, 0, 0, 1, 1, 2, 2, 1, []⟩ : Tile) ∈
      (tileLoad (fun _ => .ok ⟨2, 2, 2, []⟩)
        ⟨[⟨1, 0, 0, 1, 1, 2, 2, 1, []⟩], 1, 1, true⟩ 45 3).1.tiles := by
  have h := claim2 (fun _ => .ok ⟨2, 2, 2, []⟩)
    ⟨[⟨1, 0, 0, 1, 1, 2, 2, 1, []⟩], 1, 1, true⟩ 45 3
    (⟨⟨[⟨1, 0, 0, 1, 1, 2, 2, 1, []⟩], 1, 1, true⟩, []⟩ : State) 0
    ⟨1, 0, 0, 1, 1, 2, 2, 1, []⟩ (by decide)
  exact ⟨h.1 (List.mem_singleton_self _) (by decide),
    h.2.1 (List.mem_singleton_self _) (by decide)⟩

theorem pcL_map_update :
    ∀ (l : List Tile) (tid : Nat) (f : Tile → Tile) (t : Tile),
      (l.map (·.id)).Nodup → t ∈ l → t.id = tid →
      ((l.map (fun u => if u.id = tid then f u else u)).filter
          (fun u => 0 < u.clients)).length
          + (if 0 < t.clients then 1 else 0)
        = (l.filter (fun u => 0 < u.clients)).length
          + (if 0 < (f t).clients then 1 else 0) := by
  intro l
  induction l with
  | nil =>
    intro tid f t _ ht
    exact absurd ht (List.not_mem_nil t)
  | cons a rest ih =>
    intro tid f t hnd ht htid
    have hnd1 : (rest.map (·.id)).Nodup := (List.nodup_cons.mp hnd).2
    have hna : a.id ∉ rest.map (·.id) := (List.nodup_cons.mp hnd).1
    rcases List.mem_cons.mp ht with rfl | ht'
    · have hrest : rest.map (fun u => if u.id = tid then f u else u) = rest := by
        have hid2 : ∀ u ∈ rest, (if u.id = tid then f u else u) = id u := by
          intro u hu
          have hne : ¬(u.id = tid) := fun hutid =>
            hna (htid ▸ hutid ▸ List.mem_map_of_mem _ hu)
          simp [hne]
        rw [List.map_congr_left hid2, List.map_id]
      simp only [List.map_cons, if_pos htid, hrest, List.filter_cons]
      by_cases h1 : (0 : Int) < t.clients <;>
        by_cases h2 : (0 : Int) < (f t).clients <;>
        simp [h1, h2]
    · have haid : ¬(a.id = tid) := by
        intro haid
        exact hna (haid ▸ htid ▸ List.mem_map_of_mem _ ht')
      simp only [List.map_cons, if_neg haid, List.filter_cons]
      have h3 := ih tid f t hnd1 ht' htid
      by_cases ha : (0 : Int) < a.clients <;>
        by_cases h1 : (0 : Int) < t.clients <;>
        by_cases h2 : (0 : Int) < (f t).clients <;>
        (simp [ha, h1, h2] at h3 ⊢; try omega)

theorem pcL_erase_unpinned :
    ∀ (l : List Tile) (tid : Nat) (t : Tile),
      (l.map (·.id)).Nodup → t ∈ l → t.id = tid → ¬(0 < t.clients) →
      ((l.eraseP (fun u => u.id == tid)).filter (fun u => 0 < u.clients)).length
        = (l.filter (fun u => 0 < u.clients)).length := by
  intro l
  induction l with
  | nil =>
    intro tid t _ ht
    exact absurd ht (List.not_mem_nil t)
  | cons a rest ih =>
    intro tid t hnd ht htid hnp
    have hnd1 : (rest.map (·.id)).Nodup := (List.nodup_cons.mp hnd).2
    have hna : a.id ∉ rest.map (·.id) := (List.nodup_cons.mp hnd).1
    rcases List.mem_cons.mp ht with rfl | ht'
    · rw [List.eraseP_cons]
      have hb : (t.id == tid) = true := by simp [htid]
      rw [hb]
      show (List.filter _ rest).length = _
      rw [List.filter_cons, if_neg (by simpa using hnp)]
    · have haid : ¬(a.id = tid) := by
        intro haid
        exact hna (haid ▸ htid ▸ List.mem_map_of_mem _ ht')
      rw [List.eraseP_cons]
      have hb : (a.id == tid) = false := by simp [haid]
      rw [hb]
      show (List.filter _ (a :: rest.eraseP (fun u => u.id == tid))).length = _
      simp only [List.filter_cons]
      have h3 := ih tid t hnd1 ht' htid hnp
      split <;> simp [h3]

theorem tileLoad_soft_bound {loader : Loader} {s : Stack} {lat lon : Int}
    {p : TilePayload} (hlon : lon.natAbs ≤ 180) (hlat : lat.natAbs ≤ 89)
    (hld : loader (gdem2Name lat lon) = .ok p)
    (hszk : sizeOk s) (hnn : ∀ t ∈ s.tiles, 0 ≤ t.clients) :
    (tileLoad loader s lat lon).2 = .success ∧
    (tileLoad loader s lat lon).1.maxSize = s.maxSize ∧
    sizeOk (tileLoad loader s lat lon).1 ∧
    (tileLoad loader s lat lon).1.size ≤
      max s.maxSize ((pinnedCount (tileLoad loader s lat lon).1 : Int) + 1) := by
  have hdom : ¬(180 < lon.natAbs ∨ 89 < lat.natAbs) := by omega
  simp only [tileLoad, if_neg hdom, hld]
  by_cases hev : s.maxSize ≤ s.size
  · simp only [if_pos hev]
    refine ⟨by trivial, by trivial, ?_, ?_⟩
    · show (evictLoop s.maxSize s.tiles.reverse s.size).2 + 1 =
        ((_ :: (evictLoop s.maxSize s.tiles.reverse s.size).1.reverse).length : Int)
      have h1 := evictLoop_size (m := s.maxSize) s.tiles.reverse s.size
      rw [sizeOk] at hszk
      simp only [List.length_reverse] at h1
      simp only [List.length_cons, List.length_reverse]
      push_cast at h1 ⊢
      omega
    · rcases evictLoop_post (m := s.maxSize) s.tiles.reverse s.size with hlt | hall
      · refine le_trans ?_ (le_max_left _ _)
        show (evictLoop s.maxSize s.tiles.reverse s.size).2 + 1 ≤ s.maxSize
        omega
      · have hpc : pinnedCount ⟨(⟨p.id, (lon : ℚ), (lat : ℚ),
            (if 1 < p.nx then 1 / ((p.nx : ℚ) - 1) else 0),
            (if 1 < p.ny then 1 / ((p.ny : ℚ) - 1) else 0),
            p.nx, p.ny, 0, p.z⟩ : Tile) ::
              (evictLoop s.maxSize s.tiles.reverse s.size).1.reverse,
            (evictLoop s.maxSize s.tiles.reverse s.size).2 + 1, s.maxSize, s.hasLock⟩ =
            (evictLoop s.maxSize s.tiles.reverse s.size).1.length := by
          simp only [pinnedCount, List.filter_cons]
          rw [if_neg (by simp)]
          rw [List.filter_eq_self.mpr, List.length_reverse]
          intro u hu
          have hu1 : u ∈ (evictLoop s.maxSize s.tiles.reverse s.size).1 :=
            List.mem_reverse.mp hu
          have hu2 : u ∈ s.tiles :=
            List.mem_reverse.mp (evictLoop_subset _ _ u hu1)
          have := hall u hu1
          have := hnn u hu2
          simp only [decide_eq_true_eq]
          omega
        have h1 := evictLoop_size (m := s.maxSize) s.tiles.reverse s.size
        rw [sizeOk] at hszk
        simp only [List.length_reverse] at h1
        rw [hpc]
        have hmx := le_max_right s.maxSize
          (((evictLoop s.maxSize s.tiles.reverse s.size).1.length : Int) + 1)
        push_cast at h1 hmx ⊢
        omega
  · simp only [if_neg hev]
    refine ⟨by trivial, by trivial, ?_, ?_⟩
    · show s.size + 1 = ((_ :: s.tiles).length : Int)
      rw [sizeOk] at hszk
      simp only [List.length_cons]
      push_cast
      omega
    · refine le_trans ?_ (le_max_left _ _)
      show s.size + 1 ≤ s.maxSize
      omega

theorem datumClear_soft_bound {s : Stack} (hszk : sizeOk s)
    (hnn : ∀ t ∈ s.tiles, 0 ≤ t.clients) :
    sizeOk (datumClear s false) ∧
    (datumClear s false).size ≤
      max s.maxSize (pinnedCount (datumClear s false) : Int) := by
  have hkle := List.length_filter_le (fun t : Tile => !false && t.clients != 0) s.tiles
  have hpc : pinnedCount (datumClear s false) =
      (s.tiles.filter (fun t => !false && t.clients != 0)).length := by
    simp only [pinnedCount, datumClear]
    rw [List.filter_eq_self.mpr]
    intro u hu
    have hu1 := List.mem_filter.mp hu
    have := hnn u hu1.1
    have hu2 := hu1.2
    simp only [Bool.not_false, Bool.true_and, bne_iff_ne, ne_eq] at hu2
    simp only [decide_eq_true_eq]
    omega
  constructor
  · show _ = ((s.tiles.filter _).length : Int)
    rw [sizeOk] at hszk
    simp only [datumClear]
    push_cast
    omega
  · rw [hpc]
    have hmx := le_max_right s.maxSize
      ((s.tiles.filter (fun t => !false && t.clients != 0)).length : Int)
    show s.size - ((s.tiles.length : Int) - _) ≤ _
    rw [sizeOk] at hszk
    push_cast at hmx ⊢
    omega

theorem clientRelease_soft_bound {st : State} {i : Nat}
    (hnd : (idsOf st.stack).Nodup) (hnn : ∀ t ∈ st.stack.tiles, 0 ≤ t.clients)
    (hb : st.stack.size ≤ max st.stack.maxSize ((pinnedCount st.stack : Int) + 1)) :
    (clientRelease true true true st i).1.stack.maxSize = st.stack.maxSize ∧
    (clientRelease true true true st i).1.stack.size ≤
      max st.stack.maxSize
        ((pinnedCount (clientRelease true true true st i).1.stack : Int) + 1) := by
  cases hc : st.clients.get? i with
  | none => rw [clientRelease_noClient hc]; exact ⟨rfl, hb⟩
  | some c =>
    cases hpin : c.tile with
    | none => rw [clientRelease_noPin hc hpin]; exact ⟨rfl, hb⟩
    | some tid =>
      rw [clientRelease_ok_eq hc hpin]
      cases ht : findTile st.stack tid with
      | none => rw [releaseCore_noFind hc hpin ht]; exact ⟨rfl, hb⟩
      | some t =>
        rw [releaseCore_eq hc hpin ht]
        have hmem : t ∈ st.stack.tiles := findTile_mem ht
        have htid : t.id = tid := findTile_id ht
        have hnnt : 0 ≤ t.clients := hnn t hmem
        split
        · rename_i hneg
          have hz : t.clients = 0 := by omega
          have hpc := pcL_map_update st.stack.tiles tid
            (fun u => { u with clients := 0 }) t hnd hmem htid
          refine ⟨rfl, ?_⟩
          show st.stack.size ≤ _
          have hpc2 : pinnedCount (mapTile st.stack tid
              (fun u => { u with clients := 0 })) = pinnedCount st.stack := by
            simp only [pinnedCount, mapTile_tiles]
            simp only [hz] at hpc
            simpa using hpc
          rw [hpc2]
          exact hb
        · rename_i hpos
          have hpc := pcL_map_update st.stack.tiles tid
            (fun u => { u with clients := u.clients - 1 }) t hnd hmem htid
          split
          · rename_i hdz
            have hc1 : t.clients = 1 := by omega
            have hdec : ({ t with clients := t.clients - 1 } : Tile) ∈
                (mapTile st.stack tid
                  (fun u => { u with clients := u.clients - 1 })).tiles := by
              rw [mapTile_tiles]
              have := List.mem_map_of_mem
                (fun u : Tile =>
                  if u.id = tid then { u with clients := u.clients - 1 } else u) hmem
              simpa [htid] using this
            have hnd2 : ((mapTile st.stack tid
                (fun u => { u with clients := u.clients - 1 })).tiles.map
                  (·.id)).Nodup := by
              have := idsOf_mapTile st.stack tid
                (fun u => { u with clients := u.clients - 1 }) (fun u => rfl)
              simp only [idsOf] at this
              rw [this]
              exact hnd
            have hpe := pcL_erase_unpinned (mapTile st.stack tid
                (fun u => { u with clients := u.clients - 1 })).tiles tid
                ({ t with clients := t.clients - 1 }) hnd2 hdec (by simp [htid])
                (by simp; omega)
            refine ⟨rfl, ?_⟩
            show st.stack.size - 1 ≤ _
            have hpc2 : (pinnedCount (tileDestroy (mapTile st.stack tid
                (fun u => { u with clients := u.clients - 1 })) tid) : Int) =
                (pinnedCount st.stack : Int) - 1 := by
              simp only [pinnedCount, tileDestroy, mapTile_tiles] at hpe hpc ⊢
              simp only [hc1] at hpc
              simp at hpc
              push_cast
              omega
            rw [hpc2]
            rcases le_max_iff.mp hb with h | h
            · have hmx := le_max_left st.stack.maxSize
                ((pinnedCount st.stack : Int) - 1 + 1)
              omega
            · have hmx := le_max_right st.stack.maxSize
                ((pinnedCount st.stack : Int) - 1 + 1)
              omega
          · rename_i hnde
            refine ⟨rfl, ?_⟩
            show st.stack.size ≤ _
            by_cases hc1 : t.clients = 1
            · have hsm : st.stack.size ≤ st.stack.maxSize := by
                rcases not_and_or.mp hnde with h | h
                · omega
                · omega
              have hmx := le_max_left st.stack.maxSize
                ((pinnedCount (mapTile st.stack tid
                  (fun u => { u with clients := u.clients - 1 })) : Int) + 1)
              omega
            · have hpc2 : pinnedCount (mapTile st.stack tid
                  (fun u => { u with clients := u.clients - 1 })) =
                  pinnedCount st.stack := by
                simp only [pinnedCount, mapTile_tiles]
                have h2 : (0 < t.clients - 1) = (0 < t.clients) := by
                  by_cases hp : (0:Int) < t.clients <;> simp [hp] <;> omega
                simp only [h2] at hpc
                omega
              rw [hpc2]
              exact hb

/-- C3 (amended): the stack is soft-bounded with slack one — after a
completed tile load `size <= max(max_size, pinned + 1)` (the spec's own
scenario 3 reaches `pinned + 1`), after a soft clear
`size <= max(max_size, pinned)`, and the internal client release
preserves `size <= max(max_size, pinned + 1)`; a load whose reader
succeeds never blocks or fails because of overflow — the eviction scan
simply lets `size` exceed `max_size` when all survivors are pinned. -/
theorem claim3 (loader : Loader) (s : Stack) (lat lon : Int) (st : State)
    (i : Nat) (p : TilePayload) :
    (lon.natAbs ≤ 180 → lat.natAbs ≤ 89 → loader (gdem2Name lat lon) = .ok p →
      sizeOk s → (∀ t ∈ s.tiles, 0 ≤ t.clients) →
      (tileLoad loader s lat lon).2 = .success ∧
      sizeOk (tileLoad loader s lat lon).1 ∧
      (tileLoad loader s lat lon).1.size ≤
        max s.maxSize ((pinnedCount (tileLoad loader s lat lon).1 : Int) + 1)) ∧
    (sizeOk s → (∀ t ∈ s.tiles, 0 ≤ t.clients) →
      sizeOk (datumClear s false) ∧
      (datumClear s false).size ≤
        max s.maxSize (pinnedCount (datumClear s false) : Int)) ∧
    ((idsOf st.stack).Nodup → (∀ t ∈ st.stack.tiles, 0 ≤ t.clients) →
      st.stack.size ≤ max st.stack.maxSize ((pinnedCount st.stack : Int) + 1) →
      (clientRelease true true true st i).1.stack.size ≤
        max st.stack.maxSize
          ((pinnedCount (clientRelease true true true st i).1.stack : Int) + 1)) := by
  refine ⟨?_, ?_, ?_⟩
  · intro h1 h2 hld hszk hnn
    obtain ⟨ha, _, hb, hcx⟩ := tileLoad_soft_bound h1 h2 hld hszk hnn
    exact ⟨ha, hb, hcx⟩
  · intro hszk hnn
    exact datumClear_soft_bound hszk hnn
  · intro hnd hnn hb
    exact (clientRelease_soft_bound hnd hnn hb).2

/-- Counterexample to C3 as frozen: with `max_size = 1` and one pinned
tile (the spec's own scenario 3), a successful load completes with
`size = 2` while `max(max_size, pinned) = max(1, 1) = 1` — the claimed
bound `size <= max(max_size, |pinned|)` fails right after the eviction
scan; only the `pinned + 1` bound holds. -/
theorem claim3_counter :
    (tileLoad (fun _ => .ok ⟨2, 2, 2, [0, 0, 0, 0]⟩)
        ⟨[⟨1, 0, 0, 1, 1, 2, 2, 1, []⟩], 1, 1, true⟩ 45 3).2 = .success ∧
    sizeOk (⟨[⟨1, 0, 0, 1, 1, 2, 2, 1, []⟩], 1, 1, true⟩ : Stack) ∧
    (tileLoad (fun _ => .ok ⟨2, 2, 2, [0, 0, 0, 0]⟩)
        ⟨[⟨1, 0, 0, 1, 1, 2, 2, 1, []⟩], 1, 1, true⟩ 45 3).1.size = 2 ∧
    pinnedCount (tileLoad (fun _ => .ok ⟨2, 2, 2, [0, 0, 0, 0]⟩)
        ⟨[⟨1, 0, 0, 1, 1, 2, 2, 1, []⟩], 1, 1, true⟩ 45 3).1 = 1 ∧
    ¬((tileLoad (fun _ => .ok ⟨2, 2, 2, [0, 0, 0, 0]⟩)
        ⟨[⟨1, 0, 0, 1, 1, 2, 2, 1, []⟩], 1, 1, true⟩ 45 3).1.size ≤
      max (⟨[⟨1, 0, 0, 1, 1, 2, 2, 1, []⟩], 1, 1, true⟩ : Stack).maxSize
        (pinnedCount (tileLoad (fun _ => .ok ⟨2, 2, 2, [0, 0, 0, 0]⟩)
          ⟨[⟨1, 0, 0, 1, 1, 2, 2, 1, []⟩], 1, 1, true⟩ 45 3).1 : Int)) := by
  refine ⟨rfl, rfl, rfl, rfl, ?_⟩
  show ¬((2 : Int) ≤ max 1 (1 : Int))
  simp

/-- Witness for C3: the amended bounds at a concrete loaded stack, a
concrete cleared stack, and a concrete release. -/
theorem claim3_witness :
    ((tileLoad (fun _ => .ok ⟨2, 2, 2, []⟩) ⟨[], 0, 4, true⟩ 45 3).2 = .success ∧
      sizeOk (tileLoad (fun _ => .ok ⟨2, 2, 2, []⟩) ⟨[], 0, 4, true⟩ 45 3).1 ∧
      (tileLoad (fun _ => .ok ⟨2, 2, 2, []⟩) ⟨[], 0, 4, true⟩ 45 3).1.size ≤
        max (4 : Int)
          ((pinnedCount (tileLoad (fun _ => .ok ⟨2, 2, 2, []⟩)
            ⟨[], 0, 4, true⟩ 45 3).1 : Int) + 1)) ∧
    (clientRelease true true true
        (⟨⟨[⟨1, 0, 0, 1, 1, 2, 2, 1, []⟩], 1, 1, true⟩,
          [⟨some 1, intMin, intMin⟩]⟩ : State) 0).1.stack.size ≤
      max (1 : Int)
        ((pinnedCount (clientRelease true true true
          (⟨⟨[⟨1, 0, 0, 1, 1, 2, 2, 1, []⟩], 1, 1, true⟩,
            [⟨some 1, intMin, intMin⟩]⟩ : State) 0).1.stack : Int) + 1) := by
  constructor
  · exact (claim3 (fun _ => .ok ⟨2, 2, 2, []⟩) ⟨[], 0, 4, true⟩ 45 3
      (⟨⟨[], 0, 4, true⟩, []⟩ : State) 0 ⟨2, 2, 2, []⟩).1
      (by decide) (by decide) rfl rfl (by intro t ht; exact absurd ht (List.not_mem_nil t))
  · exact (claim3 (fun _ => .ok ⟨2, 2, 2, []⟩) ⟨[], 0, 4, true⟩ 45 3
      (⟨⟨[⟨1, 0, 0, 1, 1, 2, 2, 1, []⟩], 1, 1, true⟩,
        [⟨some 1, intMin, intMin⟩]⟩ : State) 0 ⟨2, 2, 2, []⟩).2.2
      (by decide) (by decide) (by decide)

theorem clientElevation_slow {loader : Loader} {lockOk unlockOk : Bool}
    {st : State} {i : Nat} {c : Client} {lat lon : ℚ} {insideProvided : Bool}
    (hc : st.clients.get? i = some c)
    (hmiss : (c.tile = none ∧ ¬(cTrunc lat = c.indexLa ∧ cTrunc lon = c.indexLo)) ∨
      (∃ tid0, c.tile = some tid0 ∧ findTile st.stack tid0 = none) ∨
      (∃ tid0 t0, c.tile = some tid0 ∧ findTile st.stack tid0 = some t0 ∧
        containsPt t0 lat lon = false)) :
    clientElevation loader lockOk unlockOk st i lat lon insideProvided =
      elevSlow loader lockOk unlockOk st i c lat lon insideProvided := by
  rcases hmiss with ⟨hpin, hnm⟩ | ⟨tid0, hpin, hfind⟩ | ⟨tid0, t0, hpin, hfind, hcont⟩
  · simp only [clientElevation, hc, hpin, if_neg hnm]
  · simp only [clientElevation, hc, hpin, hfind]
  · simp only [clientElevation, hc, hpin, hfind, hcont, Bool.false_eq_true,
      if_false]

theorem elevUpdate_success {st1 : State} {i : Nat} {t : Tile}
    (hrel : (releaseCore st1 i).2 = .success) :
    elevUpdate st1 i t =
      ((⟨mapTile (releaseCore st1 i).1.stack t.id
          (fun u => { u with clients := u.clients + 1 }),
        (releaseCore st1 i).1.clients.set i ⟨some t.id, intMin, intMin⟩⟩ : State),
        .success) := by
  simp only [elevUpdate, hrel]
  simp

/-- Counterexample to C4 as frozen: the claim's trigger uses the floor
`(⌊lat⌋, ⌊lon⌋)`, but the code compares the C `(int)` truncation.  A
client whose recorded known-missing pair is `(-1, 3)` (recorded from a
failed load at exactly `lat = -1.0`), queried at `lat = -1/2, lon = 7/2`
— whose floor pair is `(-1, 3)`, matching — nevertheless takes the slow
path: the lock callback is invoked and the loader is retried, because
`(int)(-1/2) = 0 ≠ -1`. -/
theorem claim4_counter :
    (⌊(-1/2 : ℚ)⌋ = (-1 : Int) ∧ ⌊(7/2 : ℚ)⌋ = (3 : Int)) ∧
    (clientElevation (fun _ => .error .pathError) true true
      (⟨⟨[], 0, 1, true⟩, [⟨none, -1, 3⟩]⟩ : State) 0 (-1/2) (7/2)
      true).2.lockCalled = true ∧
    (clientElevation (fun _ => .error .pathError) true true
      (⟨⟨[], 0, 1, true⟩, [⟨none, -1, 3⟩]⟩ : State) 0 (-1/2) (7/2)
      true).2.loadCalled = true := by
  refine ⟨⟨by norm_num, by norm_num⟩, ?_⟩
  have hc : (⟨⟨[], 0, 1, true⟩, [⟨none, -1, 3⟩]⟩ : State).clients.get? 0 =
      some ⟨none, -1, 3⟩ := rfl
  have htr : cTrunc (-1/2 : ℚ) = 0 := by norm_num [cTrunc]
  have hs := @clientElevation_slow (fun _ => .error .pathError) true true
    (⟨⟨[], 0, 1, true⟩, [⟨none, -1, 3⟩]⟩ : State) 0 ⟨none, -1, 3⟩
    (-1/2 : ℚ) (7/2 : ℚ) true hc (Or.inl ⟨rfl, by rw [htr]; simp⟩)
  rw [hs]
  have htr2 : cTrunc (7/2 : ℚ) = 3 := by norm_num [cTrunc]
  simp only [elevSlow, searchSkip, List.find?_nil, Bool.not_true,
    Bool.and_false, Bool.false_eq_true, if_false, htr, htr2]
  simp [tileLoad, releaseCore, elevFinish, gdem2Name]

/-- C4 (amended): the known-missing suppression and the recording of a
failed load both use the C `(int)` truncation toward zero of the
coordinates, not their floor.  With no pinned tile and
`((int)lat, (int)lon)` equal to the recorded pair, the call returns at
once — success with `inside = 0` when the `inside` out-parameter is
provided, `PATH_ERROR` otherwise — leaving the state untouched, without
invoking the lock callback and without calling the loader; and when the
fast paths miss, the search fails and the loader fails with
`PATH_ERROR`, the client records `((int)lat, (int)lon)` as known missing
and the same demotion rule shapes the returned result. -/
theorem claim4 (loader : Loader) (lockOk unlockOk : Bool) (st : State) (i : Nat)
    (c : Client) (lat lon : ℚ) (insideProvided : Bool)
    (hc : st.clients.get? i = some c) :
    (c.tile = none → cTrunc lat = c.indexLa → cTrunc lon = c.indexLo →
      clientElevation loader lockOk unlockOk st i lat lon insideProvided =
        (st, ⟨(if insideProvided then .success else .pathError), none,
          insideInit insideProvided, false, false⟩)) ∧
    (c.tile = none → ¬(cTrunc lat = c.indexLa ∧ cTrunc lon = c.indexLo) →
      lockOk = true → unlockOk = true →
      searchSkip st.stack.tiles c.tile lat lon = none →
      (cTrunc lon).natAbs ≤ 180 → (cTrunc lat).natAbs ≤ 89 →
      loader (gdem2Name (cTrunc lat) (cTrunc lon)) = .error .pathError →
      clientElevation loader lockOk unlockOk st i lat lon insideProvided =
        ((⟨st.stack, st.clients.set i
            { c with indexLa := cTrunc lat, indexLo := cTrunc lon }⟩ : State),
          ⟨(if insideProvided then .success else .pathError), some 0,
            insideInit insideProvided, true, true⟩)) := by
  constructor
  · intro hpin hla hlo
    simp only [clientElevation, hc, hpin, if_pos (And.intro hla hlo)]
  · intro hpin hnm hlk hulk hsearch h180 h89 hld
    subst hlk
    subst hulk
    rw [clientElevation_slow hc (Or.inl ⟨hpin, hnm⟩)]
    have hdom : ¬(180 < (cTrunc lon).natAbs ∨ 89 < (cTrunc lat).natAbs) := by
      omega
    simp only [elevSlow, Bool.not_true, Bool.and_false, Bool.false_eq_true,
      if_false, hsearch, tileLoad, if_neg hdom, hld]
    simp only [releaseCore, hc, hpin]
    simp [elevFinish, hc]

/-- Witness for C4: a suppressed repeat query at `(1/2, 7/2)` against a
recorded `(0, 3)`, and a first failing load at the same point recording
`(0, 3)`. -/
theorem claim4_witness :
    clientElevation (fun _ => .error .pathError) true true
      (⟨⟨[], 0, 1, true⟩, [⟨none, 0, 3⟩]⟩ : State) 0 (1/2) (7/2) true =
      ((⟨⟨[], 0, 1, true⟩, [⟨none, 0, 3⟩]⟩ : State),
        ⟨.success, none, some 0, false, false⟩) ∧
    clientElevation (fun _ => .error .pathError) true true
      (⟨⟨[], 0, 1, true⟩, [⟨none, intMin, intMin⟩]⟩ : State) 0 (1/2) (7/2) true =
      ((⟨⟨[], 0, 1, true⟩,
          [⟨none, intMin, intMin⟩].set 0 ⟨none, cTrunc (1/2), cTrunc (7/2)⟩⟩ : State),
        ⟨.success, some 0, some 0, true, true⟩) := by
  have htr1 : cTrunc (1/2 : ℚ) = 0 := by norm_num [cTrunc]
  have htr2 : cTrunc (7/2 : ℚ) = 3 := by norm_num [cTrunc]
  constructor
  · have h := (claim4 (fun _ => .error .pathError) true true
      (⟨⟨[], 0, 1, true⟩, [⟨none, 0, 3⟩]⟩ : State) 0 ⟨none, 0, 3⟩
      (1/2) (7/2) true rfl).1 rfl (by rw [htr1]) (by rw [htr2])
    simpa using h
  · have h := (claim4 (fun _ => .error .pathError) true true
      (⟨⟨[], 0, 1, true⟩, [⟨none, intMin, intMin⟩]⟩ : State) 0
      ⟨none, intMin, intMin⟩ (1/2) (7/2) true rfl).2 rfl
      (by rw [htr1, htr2]; decide) rfl rfl rfl
      (by rw [htr2]; decide) (by rw [htr1]; decide) rfl
    simpa using h

/-- C7: on the slow path with the lock taken, once a tile was found in
the stack (or freshly loaded at the head) and the `update:` block has
completed — the old pin released, the found/loaded tile's pin count
incremented and the client switched to it — a failing unlock callback
makes `turtle_client_elevation` return `UNLOCK_ERROR` immediately: the
interpolation is skipped, the `elevation` out-parameter is left
unwritten (`none`), while the state keeps the pin switch and the
increment (`mapTile ... (clients + 1)` and the client set to the new
tile). -/
theorem claim7 (loader : Loader) (st : State) (i : Nat) (c : Client)
    (lat lon : ℚ) (insideProvided : Bool) (t : Tile)
    (hc : st.clients.get? i = some c)
    (hmiss : (c.tile = none ∧ ¬(cTrunc lat = c.indexLa ∧ cTrunc lon = c.indexLo)) ∨
      (∃ tid0, c.tile = some tid0 ∧ findTile st.stack tid0 = none) ∨
      (∃ tid0 t0, c.tile = some tid0 ∧ findTile st.stack tid0 = some t0 ∧
        containsPt t0 lat lon = false))
    (hhl : st.stack.hasLock = true) :
    (searchSkip st.stack.tiles c.tile lat lon = some t →
      (releaseCore (⟨tileTouch st.stack t.id, st.clients⟩ : State) i).2 = .success →
      clientElevation loader true false st i lat lon insideProvided =
        ((⟨mapTile (releaseCore (⟨tileTouch st.stack t.id, st.clients⟩ : State)
              i).1.stack t.id (fun u => { u with clients := u.clients + 1 }),
          (releaseCore (⟨tileTouch st.stack t.id, st.clients⟩ : State)
            i).1.clients.set i ⟨some t.id, intMin, intMin⟩⟩ : State),
          ⟨.unlockError, none, insideInit insideProvided, true, false⟩)) ∧
    (∀ t2 rest,
      searchSkip st.stack.tiles c.tile lat lon = none →
      (tileLoad loader st.stack (cTrunc lat) (cTrunc lon)).2 = .success →
      (tileLoad loader st.stack (cTrunc lat) (cTrunc lon)).1.tiles = t2 :: rest →
      (releaseCore (⟨(tileLoad loader st.stack (cTrunc lat) (cTrunc lon)).1,
          st.clients⟩ : State) i).2 = .success →
      clientElevation loader true false st i lat lon insideProvided =
        ((⟨mapTile (releaseCore (⟨(tileLoad loader st.stack (cTrunc lat)
              (cTrunc lon)).1, st.clients⟩ : State) i).1.stack t2.id
              (fun u => { u with clients := u.clients + 1 }),
          (releaseCore (⟨(tileLoad loader st.stack (cTrunc lat) (cTrunc lon)).1,
            st.clients⟩ : State) i).1.clients.set i
              ⟨some t2.id, intMin, intMin⟩⟩ : State),
          ⟨.unlockError, none, insideInit insideProvided, true, true⟩)) := by
  constructor
  · intro hfound hrel
    rw [clientElevation_slow hc hmiss]
    simp only [elevSlow, Bool.not_true, Bool.and_false, Bool.false_eq_true,
      if_false, hfound]
    rw [elevUpdate_success hrel]
    simp [elevFinish, hhl]
  · intro t2 rest hnone hsucc hhead hrel
    rw [clientElevation_slow hc hmiss]
    simp only [elevSlow, Bool.not_true, Bool.and_false, Bool.false_eq_true,
      if_false, hnone, hsucc, hhead, ne_eq, not_true_eq_false]
    rw [elevUpdate_success hrel]
    simp [elevFinish, hhl]

/-- Witness for C7: a client with no pin queries inside the only tile of
the stack; the search hits, the update pins the tile (count 0 to 1), and
the failing unlock callback surfaces as `UNLOCK_ERROR` with the
elevation out-parameter never written. -/
theorem claim7_witness :
    (clientElevation (fun _ => .error .pathError) true false
        (⟨⟨[⟨1, 0, 0, 1, 1, 2, 2, 0, [5, 5, 5, 5]⟩], 1, 4, true⟩,
          [⟨none, intMin, intMin⟩]⟩ : State) 0 (1/2) (1/2) false).2.rc =
      .unlockError ∧
    (clientElevation (fun _ => .error .pathError) true false
        (⟨⟨[⟨1, 0, 0, 1, 1, 2, 2, 0, [5, 5, 5, 5]⟩], 1, 4, true⟩,
          [⟨none, intMin, intMin⟩]⟩ : State) 0 (1/2) (1/2) false).2.elevation =
      none ∧
    (clientElevation (fun _ => .error .pathError) true false
        (⟨⟨[⟨1, 0, 0, 1, 1, 2, 2, 0, [5, 5, 5, 5]⟩], 1, 4, true⟩,
          [⟨none, intMin, intMin⟩]⟩ : State) 0 (1/2) (1/2)
        false).1.clients.get? 0 = some ⟨some 1, intMin, intMin⟩ := by
  have hfound : searchSkip
      (⟨⟨[⟨1, 0, 0, 1, 1, 2, 2, 0, [5, 5, 5, 5]⟩], 1, 4, true⟩,
        [⟨none, intMin, intMin⟩]⟩ : State).stack.tiles
      (⟨none, intMin, intMin⟩ : Client).tile (1/2) (1/2) =
      some ⟨1, 0, 0, 1, 1, 2, 2, 0, [5, 5, 5, 5]⟩ := by
    simp only [searchSkip]
    rw [List.find?_cons_of_pos]
    norm_num [containsPt, hxOf, hyOf]
  have h := (claim7 (fun _ => .error .pathError)
    (⟨⟨[⟨1, 0, 0, 1, 1, 2, 2, 0, [5, 5, 5, 5]⟩], 1, 4, true⟩,
      [⟨none, intMin, intMin⟩]⟩ : State) 0 ⟨none, intMin, intMin⟩
    (1/2) (1/2) false ⟨1, 0, 0, 1, 1, 2, 2, 0, [5, 5, 5, 5]⟩ rfl
    (Or.inl ⟨rfl, by
      have htr1 : cTrunc (1/2 : ℚ) = 0 := by norm_num [cTrunc]
      rw [htr1]
      simp [intMin]⟩) rfl).1 hfound rfl
  rw [h]
  exact ⟨rfl, rfl, rfl⟩

theorem countP_set {l : List Client} {i : Nat} {c : Client} (c' : Client)
    (p : Client → Bool) (hc : l.get? i = some c) :
    (l.set i c').countP p + (if p c then 1 else 0) =
      l.countP p + (if p c' then 1 else 0) := by
  induction l generalizing i with
  | nil => simp at hc
  | cons a rest ih =>
    cases i with
    | zero =>
      obtain rfl : a = c := by simpa using hc
      simp only [List.set_cons_zero, List.countP_cons]
      generalize (if p a = true then 1 else 0) = w1
      generalize (if p c' = true then 1 else 0) = w2
      omega
    | succ n =>
      have hc' : rest.get? n = some c := by simpa using hc
      have h1 := ih hc'
      simp only [List.set_cons_succ, List.countP_cons]
      generalize hw : (if p a = true then 1 else 0) = w1 at *
      omega

theorem countP_eraseIdx {l : List Client} {i : Nat} {c : Client}
    (p : Client → Bool) (hc : l.get? i = some c) :
    l.countP p = (l.eraseIdx i).countP p + (if p c then 1 else 0) := by
  induction l generalizing i with
  | nil => simp at hc
  | cons a rest ih =>
    cases i with
    | zero =>
      obtain rfl : a = c := by simpa using hc
      simp [List.countP_cons]
    | succ n =>
      have hc' : rest.get? n = some c := by simpa using hc
      have h1 := ih hc'
      simp only [List.eraseIdx_cons_succ, List.countP_cons]
      omega

theorem pinsL_one {cl : List Client} {i : Nat} {c : Client} {tid : Nat}
    (hc : cl.get? i = some c) (hpin : c.tile = some tid) :
    1 ≤ cl.countP (fun x => decide (x.tile = some tid)) := by
  have : 0 < cl.countP (fun x => decide (x.tile = some tid)) :=
    List.countP_pos.mpr ⟨c, List.get?_mem hc, by simp [hpin]⟩
  omega

theorem pinsL_clear {cl : List Client} {i : Nat} {c : Client} {tid : Nat}
    (hc : cl.get? i = some c) (hpin : c.tile = some tid) (tid2 : Nat) :
    (cl.set i { c with tile := none }).countP
        (fun x => decide (x.tile = some tid2)) +
      (if tid = tid2 then 1 else 0) =
    cl.countP (fun x => decide (x.tile = some tid2)) := by
  have h := countP_set (l := cl) (i := i)
    ({ c with tile := none }) (fun x => decide (x.tile = some tid2)) hc
  by_cases he : tid = tid2
  · subst he
    simpa [hpin] using h
  · simpa [hpin, he] using h

theorem pinsL_keep_tile {cl : List Client} {i : Nat} {c c' : Client}
    (hc : cl.get? i = some c) (htl : c'.tile = c.tile) (tid2 : Nat) :
    (cl.set i c').countP (fun x => decide (x.tile = some tid2)) =
      cl.countP (fun x => decide (x.tile = some tid2)) := by
  have h := countP_set (l := cl) (i := i) c'
    (fun x => decide (x.tile = some tid2)) hc
  simp only [decide_eq_true_eq] at h
  rw [htl] at h
  generalize (if c.tile = some tid2 then 1 else 0) = w at h
  omega

theorem pinsL_pin {cl : List Client} {i : Nat} {c : Client}
    (hc : cl.get? i = some c) (hpin : c.tile = none) (tid : Nat) (tid2 : Nat) :
    (cl.set i ⟨some tid, intMin, intMin⟩).countP
        (fun x => decide (x.tile = some tid2)) =
      cl.countP (fun x => decide (x.tile = some tid2)) +
        (if tid = tid2 then 1 else 0) := by
  have h := countP_set (l := cl) (i := i) ⟨some tid, intMin, intMin⟩
    (fun x => decide (x.tile = some tid2)) hc
  by_cases he : tid = tid2
  · subst he
    simpa [hpin] using h
  · simpa [hpin, he] using h

theorem pinnedInStack_none {s : Stack} {c : Client} (hpin : c.tile = none) :
    pinnedInStack s c = true := by
  simp [pinnedInStack, hpin]

theorem pinnedInStack_some {s : Stack} {c : Client} {tid : Nat}
    (hpin : c.tile = some tid) :
    pinnedInStack s c = true ↔ tid ∈ idsOf s := by
  simp [pinnedInStack, hpin]

theorem pinnedInStack_mono {s s' : Stack} {c : Client}
    (hsub : ∀ x, x ∈ idsOf s → x ∈ idsOf s')
    (h : pinnedInStack s c = true) : pinnedInStack s' c = true := by
  cases hpin : c.tile with
  | none => exact pinnedInStack_none hpin
  | some tid =>
    rw [pinnedInStack_some hpin] at h ⊢
    exact hsub tid h

theorem releaseCore_wf {st : State} {i : Nat} (h : Wf st) :
    Wf (releaseCore st i).1 := by
  obtain ⟨hacc, hpres⟩ := h
  cases hc : st.clients.get? i with
  | none =>
    rw [releaseCore_noClient hc]
    exact ⟨hacc, hpres⟩
  | some c =>
    cases hpin : c.tile with
    | none =>
      rw [releaseCore_noPin hc hpin]
      exact ⟨hacc, hpres⟩
    | some tid =>
      have hpcne : ∀ tid2, tid2 ≠ tid →
          (st.clients.set i { c with tile := none }).countP
            (fun x => decide (x.tile = some tid2)) =
          st.clients.countP (fun x => decide (x.tile = some tid2)) := by
        intro tid2 hne
        have h1 := pinsL_clear hc hpin tid2
        rw [if_neg (fun h2 => hne h2.symm)] at h1
        omega
      cases ht : findTile st.stack tid with
      | none =>
        rw [releaseCore_noFind hc hpin ht]
        have hnotid : ∀ u ∈ st.stack.tiles, u.id ≠ tid := by
          intro u hu he
          have h2 := (List.find?_eq_none.mp ht) u hu
          simp [he] at h2
        constructor
        · intro u hu
          have h0 := hacc u hu
          rw [pinsOf] at h0
          show u.clients = ((st.clients.set i { c with tile := none }).countP
            (fun x => decide (x.tile = some u.id)) : Int)
          rw [hpcne u.id (hnotid u hu)]
          exact h0
        · intro c2 hc2
          rcases List.mem_or_eq_of_mem_set hc2 with hm2 | rfl
          · exact hpres c2 hm2
          · exact pinnedInStack_none rfl
      | some t =>
        rw [releaseCore_eq hc hpin ht]
        have htid := findTile_id ht
        have hmem := findTile_mem ht
        have hcnt : t.clients = (st.clients.countP
            (fun x => decide (x.tile = some tid)) : Int) := by
          have h0 := hacc t hmem
          rw [pinsOf] at h0
          rwa [htid] at h0
        have hone := pinsL_one hc hpin
        rw [if_neg (by omega)]
        have hpc0 : (st.clients.set i { c with tile := none }).countP
            (fun x => decide (x.tile = some tid)) + 1 =
            st.clients.countP (fun x => decide (x.tile = some tid)) := by
          have h1 := pinsL_clear hc hpin tid
          simpa using h1
        have haccM : pinAccounting ⟨mapTile st.stack tid
            (fun v => { v with clients := v.clients - 1 }),
            st.clients.set i { c with tile := none }⟩ := by
          intro u hu
          rw [mapTile_tiles] at hu
          obtain ⟨v, hv, rfl⟩ := List.mem_map.mp hu
          have h0 := hacc v hv
          rw [pinsOf] at h0
          by_cases hvid : v.id = tid
          · rw [if_pos hvid]
            show v.clients - 1 = ((st.clients.set i
              { c with tile := none }).countP
              (fun x => decide (x.tile = some v.id)) : Int)
            rw [hvid] at h0 ⊢
            omega
          · rw [if_neg hvid]
            show v.clients = ((st.clients.set i { c with tile := none }).countP
              (fun x => decide (x.tile = some v.id)) : Int)
            rw [hpcne v.id hvid]
            exact h0
        have hpresM : pinsPresent ⟨mapTile st.stack tid
            (fun v => { v with clients := v.clients - 1 }),
            st.clients.set i { c with tile := none }⟩ := by
          intro c2 hc2
          rcases List.mem_or_eq_of_mem_set hc2 with hm2 | rfl
          · refine pinnedInStack_mono ?_ (hpres c2 hm2)
            intro x hx
            rwa [idsOf_mapTile st.stack tid
              (fun v => { v with clients := v.clients - 1 }) (fun v => rfl)]
          · exact pinnedInStack_none rfl
        split
        · rename_i hdz
          constructor
          · intro u hu
            have hu2 : u ∈ (mapTile st.stack tid
                (fun v => { v with clients := v.clients - 1 })).tiles :=
              List.mem_of_mem_eraseP hu
            exact haccM u hu2
          · intro c2 hc2
            cases hpin2 : c2.tile with
            | none => exact pinnedInStack_none hpin2
            | some tid2 =>
              rw [pinnedInStack_some hpin2]
              by_cases hsame : tid2 = tid
              · exfalso
                have hz : (st.clients.set i { c with tile := none }).countP
                    (fun x => decide (x.tile = some tid)) = 0 := by omega
                have h3 := List.countP_eq_zero.mp hz c2 hc2
                simp only [decide_eq_true_eq, hpin2, hsame] at h3
                exact h3 trivial
              · have h2 := hpresM c2 hc2
                rw [pinnedInStack_some hpin2] at h2
                rw [idsOf] at h2 ⊢
                obtain ⟨v, hv, hvid⟩ := List.mem_map.mp h2
                refine List.mem_map.mpr ⟨v, ?_, hvid⟩
                show v ∈ List.eraseP _ _
                refine (List.mem_eraseP_of_neg ?_).mpr hv
                simp only [beq_iff_eq]
                rw [hvid]
                exact hsame
        · exact ⟨haccM, hpresM⟩

theorem releaseCore_get_none {st : State} {i : Nat} {c : Client}
    (hc : st.clients.get? i = some c) :
    ∃ c2, (releaseCore st i).1.clients.get? i = some c2 ∧ c2.tile = none := by
  have hlen : i < st.clients.length := by
    by_contra hgt
    rw [List.get?_eq_none.mpr (by omega)] at hc
    exact Option.noConfusion hc
  cases hpin : c.tile with
  | none => exact ⟨c, by rw [releaseCore_noPin hc hpin]; exact hc, hpin⟩
  | some tid =>
    cases ht : findTile st.stack tid with
    | none =>
      exact ⟨{ c with tile := none }, by
        rw [releaseCore_noFind hc hpin ht]
        exact List.get?_set_eq_of_lt _ hlen, rfl⟩
    | some t =>
      rw [releaseCore_eq hc hpin ht]
      refine ⟨{ c with tile := none }, ?_, rfl⟩
      split
      · exact List.get?_set_eq_of_lt _ hlen
      · split
        · exact List.get?_set_eq_of_lt _ hlen
        · exact List.get?_set_eq_of_lt _ hlen

theorem releaseCore_keeps_other_ids {st : State} {i : Nat} {x : Nat}
    (hx : x ∈ idsOf st.stack)
    (hno : ∀ c, st.clients.get? i = some c → c.tile ≠ some x) :
    x ∈ idsOf (releaseCore st i).1.stack := by
  cases hc : st.clients.get? i with
  | none => rw [releaseCore_noClient hc]; exact hx
  | some c =>
    cases hpin : c.tile with
    | none => rw [releaseCore_noPin hc hpin]; exact hx
    | some tid =>
      have hne : tid ≠ x := by
        intro he
        exact hno c hc (he ▸ hpin)
      cases ht : findTile st.stack tid with
      | none => rw [releaseCore_noFind hc hpin ht]; exact hx
      | some t =>
        rw [releaseCore_eq hc hpin ht]
        have hids : x ∈ idsOf (mapTile st.stack tid
            (fun u => { u with clients := u.clients - 1 })) := by
          rwa [idsOf_mapTile st.stack tid
            (fun u => { u with clients := u.clients - 1 }) (fun u => rfl)]
        split
        · rwa [idsOf_mapTile st.stack tid
            (fun u => { u with clients := 0 }) (fun u => rfl)]
        · split
          · rw [idsOf] at hids ⊢
            obtain ⟨v, hv, hvid⟩ := List.mem_map.mp hids
            refine List.mem_map.mpr ⟨v, ?_, hvid⟩
            show v ∈ List.eraseP _ _
            refine (List.mem_eraseP_of_neg ?_).mpr hv
            simp only [beq_iff_eq]
            rw [hvid]
            exact fun he => hne he.symm
          · exact hids

theorem tileTouch_subset {s : Stack} {tid : Nat} {u : Tile}
    (hu : u ∈ (tileTouch s tid).tiles) : u ∈ s.tiles := by
  rw [tileTouch] at hu
  split at hu
  · exact hu
  · split at hu
    · exact hu
    · split at hu
      · exact hu
      · rename_i t hfind
        rcases List.mem_cons.mp hu with rfl | hu'
        · exact List.mem_of_find?_eq_some hfind
        · exact List.mem_of_mem_eraseP hu'

theorem tileTouch_ids {s : Stack} {tid x : Nat} (hx : x ∈ idsOf s) :
    x ∈ idsOf (tileTouch s tid) := by
  rw [tileTouch]
  split
  · exact hx
  · split
    · exact hx
    · split
      · exact hx
      · rename_i t hfind
        have htx : t.id = tid := by
          have h1 := List.find?_some hfind
          simpa using h1
        by_cases hxe : x = tid
        · subst hxe
          exact List.mem_map.mpr ⟨t, List.mem_cons_self _ _, htx⟩
        · rw [idsOf] at hx ⊢
          obtain ⟨v, hv, hvid⟩ := List.mem_map.mp hx
          refine List.mem_map.mpr ⟨v, List.mem_cons_of_mem _ ?_, hvid⟩
          refine (List.mem_eraseP_of_neg ?_).mpr hv
          simp only [beq_iff_eq]
          rw [hvid]
          exact hxe

theorem tileTouch_wf {st : State} (tid : Nat) (h : Wf st) :
    Wf ⟨tileTouch st.stack tid, st.clients⟩ := by
  obtain ⟨hacc, hpres⟩ := h
  constructor
  · intro u hu
    exact hacc u (tileTouch_subset hu)
  · intro c2 hc2
    exact pinnedInStack_mono (fun x hx => tileTouch_ids hx) (hpres c2 hc2)

theorem bump_wf {st1 : State} {i : Nat} {c1 : Client} {tid : Nat}
    (h : Wf st1) (hc1 : st1.clients.get? i = some c1) (hpin1 : c1.tile = none)
    (hin : tid ∈ idsOf st1.stack) :
    Wf ⟨mapTile st1.stack tid (fun u => { u with clients := u.clients + 1 }),
      st1.clients.set i ⟨some tid, intMin, intMin⟩⟩ := by
  obtain ⟨hacc, hpres⟩ := h
  constructor
  · intro u hu
    rw [mapTile_tiles] at hu
    obtain ⟨v, hv, rfl⟩ := List.mem_map.mp hu
    have h0 := hacc v hv
    rw [pinsOf] at h0
    have h2 := pinsL_pin hc1 hpin1 tid v.id
    by_cases hvid : v.id = tid
    · rw [if_pos hvid]
      show v.clients + 1 = ((st1.clients.set i
        ⟨some tid, intMin, intMin⟩).countP
        (fun x => decide (x.tile = some v.id)) : Int)
      rw [if_pos hvid.symm] at h2
      omega
    · rw [if_neg hvid]
      show v.clients = ((st1.clients.set i ⟨some tid, intMin, intMin⟩).countP
        (fun x => decide (x.tile = some v.id)) : Int)
      rw [if_neg (fun he => hvid he.symm)] at h2
      omega
  · intro c2 hc2
    rcases List.mem_or_eq_of_mem_set hc2 with hm2 | rfl
    · refine pinnedInStack_mono ?_ (hpres c2 hm2)
      intro x hx
      rwa [idsOf_mapTile st1.stack tid
        (fun u => { u with clients := u.clients + 1 }) (fun u => rfl)]
    · rw [pinnedInStack_some rfl]
      rwa [idsOf_mapTile st1.stack tid
        (fun u => { u with clients := u.clients + 1 }) (fun u => rfl)]

theorem setIndices_wf {st2 : State} {i : Nat} {c2 : Client} (h : Wf st2)
    (hc2 : st2.clients.get? i = some c2) (la lo : Int) :
    Wf ⟨st2.stack, st2.clients.set i
      { c2 with indexLa := la, indexLo := lo }⟩ := by
  obtain ⟨hacc, hpres⟩ := h
  constructor
  · intro u hu
    have h0 := hacc u hu
    rw [pinsOf] at h0
    show u.clients = ((st2.clients.set i
      { c2 with indexLa := la, indexLo := lo }).countP
      (fun x => decide (x.tile = some u.id)) : Int)
    rw [@pinsL_keep_tile st2.clients i c2
      { c2 with indexLa := la, indexLo := lo } hc2 rfl u.id]
    exact h0
  · intro c3 hc3
    rcases List.mem_or_eq_of_mem_set hc3 with hm | rfl
    · exact hpres c3 hm
    · exact hpres c2 (List.get?_mem hc2)

theorem elevFinish_state (unlockOk loadCalled hasLock insideProvided : Bool)
    (st' : State) (rc : TRet) (tl : Option (Tile × ℚ × ℚ)) :
    (elevFinish unlockOk loadCalled hasLock insideProvided st' rc tl).1 = st' := by
  rw [elevFinish.eq_def]
  split
  · rfl
  · split
    · rcases tl with _ | p
      · rfl
      · rfl
    · split
      · rfl
      · rfl

theorem tileLoad_wf {loader : Loader} {s : Stack} {cl : List Client}
    {lat lon : Int} (h : Wf (⟨s, cl⟩ : State))
    (hfresh : ∀ p, loader (gdem2Name lat lon) = .ok p → p.id ∉ idsOf s) :
    Wf (⟨(tileLoad loader s lat lon).1, cl⟩ : State) := by
  obtain ⟨hacc, hpres⟩ := h
  simp only [tileLoad]
  split
  · exact ⟨hacc, hpres⟩
  · cases hld : loader (gdem2Name lat lon) with
    | error rc =>
      simp only [hld]
      exact ⟨hacc, hpres⟩
    | ok p =>
      simp only [hld]
      have hfr := hfresh p hld
      have hzero : cl.countP (fun x => decide (x.tile = some p.id)) = 0 := by
        refine List.countP_eq_zero.mpr ?_
        intro c2 hc2 hdec
        rw [decide_eq_true_eq] at hdec
        have h2 := hpres c2 hc2
        rw [pinnedInStack_some hdec] at h2
        exact hfr h2
      have main : ∀ (nt : Tile) (base : List Tile) (sz : Int),
          nt.id = p.id → nt.clients = 0 →
          (∀ u ∈ base, u ∈ s.tiles) →
          (∀ v ∈ s.tiles, v.clients ≠ 0 → v ∈ base) →
          Wf (⟨⟨nt :: base, sz, s.maxSize, s.hasLock⟩, cl⟩ : State) := by
        intro nt base sz hid hcl hsub hkeep
        constructor
        · intro u hu
          rcases List.mem_cons.mp hu with rfl | hu'
          · show u.clients =
              (cl.countP (fun x => decide (x.tile = some u.id)) : Int)
            rw [hid, hcl, hzero]
            rfl
          · exact hacc u (hsub u hu')
        · intro c2 hc2
          cases hpin2 : c2.tile with
          | none => exact pinnedInStack_none hpin2
          | some tid2 =>
            rw [pinnedInStack_some hpin2]
            have h2 := hpres c2 hc2
            rw [pinnedInStack_some hpin2, idsOf] at h2
            obtain ⟨v, hv, hvid⟩ := List.mem_map.mp h2
            have hvp : 1 ≤ cl.countP (fun x => decide (x.tile = some tid2)) := by
              have h3 : 0 < cl.countP (fun x => decide (x.tile = some tid2)) :=
                List.countP_pos.mpr ⟨c2, hc2, by simp [hpin2]⟩
              omega
            have hvcl : v.clients ≠ 0 := by
              have h0 := hacc v hv
              simp only [pinsOf, hvid] at h0
              omega
            exact List.mem_map.mpr
              ⟨v, List.mem_cons_of_mem _ (hkeep v hv hvcl), hvid⟩
      by_cases hev : s.maxSize ≤ s.size
      · simp only [if_pos hev]
        refine main ?_ _ _ ?_ ?_ ?_ ?_
        · exact rfl
        · exact rfl
        · intro u hu
          exact List.mem_reverse.mp
            (evictLoop_subset _ _ u (List.mem_reverse.mp hu))
        · intro v hv hvcl
          exact List.mem_reverse.mpr
            (evictLoop_keeps_pinned _ _ v (List.mem_reverse.mpr hv) hvcl)
      · simp only [if_neg hev]
        refine main ?_ s.tiles (s.size + 1) ?_ ?_ ?_ ?_
        · exact rfl
        · exact rfl
        · exact fun u hu => hu
        · exact fun v hv _ => hv

theorem tileLoad_ok_head {loader : Loader} {s : Stack} {lat lon : Int}
    (hsucc : (tileLoad loader s lat lon).2 = .success)
    (hok : loader (gdem2Name lat lon) ≠ .error .success) :
    ∃ p, loader (gdem2Name lat lon) = .ok p ∧
      ∀ t2 rest, (tileLoad loader s lat lon).1.tiles = t2 :: rest →
        t2.id = p.id := by
  have hdom : ¬(180 < lon.natAbs ∨ 89 < lat.natAbs) := by
    by_contra hd
    simp only [tileLoad, if_pos hd] at hsucc
    exact TRet.noConfusion hsucc
  cases hld : loader (gdem2Name lat lon) with
  | error rc =>
    simp only [tileLoad, if_neg hdom, hld] at hsucc
    exact absurd (hld.trans (by rw [hsucc])) hok
  | ok p =>
    refine ⟨p, rfl, ?_⟩
    intro t2 rest hr
    simp only [tileLoad, if_neg hdom, hld] at hr
    split at hr
    · have h1 := (List.cons.injEq _ _ _ _).mp hr
      rw [← h1.1]
    · have h1 := (List.cons.injEq _ _ _ _).mp hr
      rw [← h1.1]

theorem elevUpdate_wf {st1 : State} {i : Nat} {c1 : Client} {t : Tile}
    (h : Wf st1) (hc1 : st1.clients.get? i = some c1)
    (hno : c1.tile ≠ some t.id) (hin : t.id ∈ idsOf st1.stack) :
    Wf (elevUpdate st1 i t).1 := by
  have hwf2 := releaseCore_wf (i := i) h
  rw [elevUpdate]
  split
  · exact hwf2
  · obtain ⟨c2, hc2, hpin2⟩ := releaseCore_get_none hc1
    have hin2 : t.id ∈ idsOf (releaseCore st1 i).1.stack := by
      refine releaseCore_keeps_other_ids hin ?_
      intro c3 hc3
      rw [hc1] at hc3
      injection hc3 with he
      rw [← he]
      exact hno
    exact bump_wf hwf2 hc2 hpin2 hin2

theorem elevSlow_wf {loader : Loader} {lockOk unlockOk : Bool} {st : State}
    {i : Nat} {c : Client} {lat lon : ℚ} {insideProvided : Bool}
    (h : Wf st) (hc : st.clients.get? i = some c)
    (hfresh : ∀ p, loader (gdem2Name (cTrunc lat) (cTrunc lon)) = .ok p →
      p.id ∉ idsOf st.stack)
    (hok : loader (gdem2Name (cTrunc lat) (cTrunc lon)) ≠ .error .success) :
    Wf (elevSlow loader lockOk unlockOk st i c lat lon insideProvided).1 := by
  rw [elevSlow]
  split
  · exact h
  · cases hsearch : searchSkip st.stack.tiles c.tile lat lon with
    | some t =>
      simp only [hsearch]
      rw [elevFinish_state]
      have hwt := tileTouch_wf t.id h
      have hmemt : t ∈ st.stack.tiles := List.mem_of_find?_eq_some hsearch
      have hfs := List.find?_some hsearch
      have hnot : c.tile ≠ some t.id := by
        rw [Bool.and_eq_true] at hfs
        have hb := hfs.1
        intro he
        rw [he] at hb
        simp at hb
      exact elevUpdate_wf hwt hc hnot
        (tileTouch_ids (List.mem_map.mpr ⟨t, hmemt, rfl⟩))
    | none =>
      simp only [hsearch]
      have hwl : Wf (⟨(tileLoad loader st.stack (cTrunc lat)
          (cTrunc lon)).1, st.clients⟩ : State) := tileLoad_wf h hfresh
      split
      · obtain ⟨c2, hg, hp⟩ := @releaseCore_get_none
          ⟨(tileLoad loader st.stack (cTrunc lat) (cTrunc lon)).1,
            st.clients⟩ i c hc
        simp only [hg]
        rw [elevFinish_state]
        exact setIndices_wf (releaseCore_wf hwl) hg _ _
      · rename_i hsucc2
        have hsucc : (tileLoad loader st.stack (cTrunc lat)
            (cTrunc lon)).2 = .success := by
          by_contra hne
          exact hsucc2 hne
        obtain ⟨p, hld, hheadId⟩ := tileLoad_ok_head hsucc hok
        cases hhead : (tileLoad loader st.stack (cTrunc lat)
            (cTrunc lon)).1.tiles with
        | nil =>
          simp only [hhead]
          rw [elevFinish_state]
          exact hwl
        | cons t2 rest =>
          simp only [hhead]
          rw [elevFinish_state]
          have ht2 : t2.id = p.id := hheadId t2 rest hhead
          refine elevUpdate_wf hwl hc ?_ ?_
          · intro he
            cases hct : c.tile with
            | none =>
              rw [hct] at he
              exact Option.noConfusion he
            | some tid0 =>
              rw [hct] at he
              injection he with he2
              have h2 := h.2 c (List.get?_mem hc)
              rw [pinnedInStack_some hct] at h2
              rw [he2, ht2] at h2
              exact hfresh p hld h2
          · exact List.mem_map.mpr
              ⟨t2, by rw [hhead]; exact List.mem_cons_self _ _, rfl⟩

theorem clientElevation_wf {loader : Loader} {lockOk unlockOk : Bool}
    {st : State} {i : Nat} {lat lon : ℚ} {insideProvided : Bool}
    (h : Wf st)
    (hfresh : ∀ p, loader (gdem2Name (cTrunc lat) (cTrunc lon)) = .ok p →
      p.id ∉ idsOf st.stack)
    (hok : loader (gdem2Name (cTrunc lat) (cTrunc lon)) ≠ .error .success) :
    Wf (clientElevation loader lockOk unlockOk st i lat lon insideProvided).1 := by
  cases hc : st.clients.get? i with
  | none =>
    simp only [clientElevation, hc]
    exact h
  | some c =>
    cases hpin : c.tile with
    | some tid =>
      cases ht : findTile st.stack tid with
      | some t =>
        by_cases hcont : containsPt t lat lon = true
        · simp only [clientElevation, hc, hpin, ht, hcont, if_true]
          exact h
        · have hb : containsPt t lat lon = false := by
            revert hcont
            cases containsPt t lat lon <;> simp
          rw [clientElevation_slow hc (Or.inr (Or.inr ⟨tid, t, hpin, ht, hb⟩))]
          exact elevSlow_wf h hc hfresh hok
      | none =>
        rw [clientElevation_slow hc (Or.inr (Or.inl ⟨tid, hpin, ht⟩))]
        exact elevSlow_wf h hc hfresh hok
    | none =>
      by_cases hsup : cTrunc lat = c.indexLa ∧ cTrunc lon = c.indexLo
      · simp only [clientElevation, hc, hpin, if_pos hsup]
        exact h
      · rw [clientElevation_slow hc (Or.inl ⟨hpin, hsup⟩)]
        exact elevSlow_wf h hc hfresh hok

theorem clientRelease_wf {lockOk unlockOk : Bool} {st : State} {i : Nat}
    (h : Wf st) : Wf (clientRelease lockOk unlockOk true st i).1 := by
  cases hc : st.clients.get? i with
  | none =>
    simp only [clientRelease, hc]
    exact h
  | some c =>
    cases hpin : c.tile with
    | none =>
      simp only [clientRelease, hc, hpin]
      exact h
    | some tid =>
      simp only [clientRelease, hc, hpin]
      split
      · exact h
      · split
        · exact releaseCore_wf h
        · exact releaseCore_wf h

theorem clientRelease_erase_ok {lockOk unlockOk : Bool} {st : State} {i : Nat} :
    (clientRelease lockOk unlockOk true st i).1.clients.get? i = none ∨
    (∃ c2, (clientRelease lockOk unlockOk true st i).1.clients.get? i =
      some c2 ∧ c2.tile = none) ∨
    (clientRelease lockOk unlockOk true st i).2 = .lockError := by
  cases hc : st.clients.get? i with
  | none =>
    left
    simp only [clientRelease, hc]
  | some c =>
    cases hpin : c.tile with
    | none =>
      right
      left
      exact ⟨c, by simp only [clientRelease, hc, hpin], hpin⟩
    | some tid =>
      simp only [clientRelease, hc, hpin]
      split
      · right
        right
        rfl
      · obtain ⟨c2, hg, hp⟩ := releaseCore_get_none hc
        split
        · right
          left
          exact ⟨c2, hg, hp⟩
        · right
          left
          exact ⟨c2, hg, hp⟩

theorem clientDestroy_wf {lockOk unlockOk : Bool} {st : State} {i : Nat}
    (h : Wf st) : Wf (clientDestroy lockOk unlockOk st i).1 := by
  have hwf := @clientRelease_wf lockOk unlockOk st i h
  rw [clientDestroy]
  split
  · exact hwf
  · rename_i hrc
    obtain ⟨hacc, hpres⟩ := hwf
    rcases @clientRelease_erase_ok lockOk unlockOk st i
      with hnone | ⟨c2, hg, hp⟩ | hlk
    · have hlen : (clientRelease lockOk unlockOk true st i).1.clients.length
          ≤ i := List.get?_eq_none.mp hnone
      constructor
      · intro u hu
        have h0 := hacc u hu
        rw [pinsOf] at h0
        show u.clients = (((clientRelease lockOk unlockOk true
          st i).1.clients.eraseIdx i).countP
          (fun x => decide (x.tile = some u.id)) : Int)
        rw [List.eraseIdx_of_length_le hlen]
        exact h0
      · intro c3 hc3
        exact hpres c3 (List.mem_of_mem_eraseIdx hc3)
    · constructor
      · intro u hu
        have h0 := hacc u hu
        rw [pinsOf] at h0
        have h1 := countP_eraseIdx
          (fun x => decide (x.tile = some u.id)) hg
        simp [hp] at h1
        show u.clients = (((clientRelease lockOk unlockOk true
          st i).1.clients.eraseIdx i).countP
          (fun x => decide (x.tile = some u.id)) : Int)
        omega
      · intro c3 hc3
        exact hpres c3 (List.mem_of_mem_eraseIdx hc3)
    · exact absurd (Or.inl hlk) hrc

/-- C1 (pin accounting): if, for every tile `T` in the stack, the number of
clients whose pinned tile is `T` equals `T`'s pin count (and every pinned
tile is present in the stack), then that equality is preserved by every
operation that changes a client's pinned tile: the internal release
(`client_release`), the locked release (`clientRelease`), client clear,
client destroy, and a full `turtle_client_elevation` call — the latter
under the assumptions that a tile delivered by the reader is a fresh one
(not already in the stack) and that a failing read does not report
`TURTLE_RETURN_SUCCESS` as its error code. -/
theorem claim1 {st : State} (h : Wf st) :
    (∀ i, Wf (releaseCore st i).1) ∧
    (∀ lockOk unlockOk : Bool, ∀ i, Wf (clientRelease lockOk unlockOk true st i).1) ∧
    (∀ lockOk unlockOk : Bool, ∀ i, Wf (clientClear lockOk unlockOk st i).1) ∧
    (∀ lockOk unlockOk : Bool, ∀ i, Wf (clientDestroy lockOk unlockOk st i).1) ∧
    (∀ (loader : Loader) (lockOk unlockOk : Bool) (i : Nat) (lat lon : ℚ)
      (insideProvided : Bool),
      (∀ p, loader (gdem2Name (cTrunc lat) (cTrunc lon)) = .ok p →
        p.id ∉ idsOf st.stack) →
      loader (gdem2Name (cTrunc lat) (cTrunc lon)) ≠ .error .success →
      Wf (clientElevation loader lockOk unlockOk st i lat lon
        insideProvided).1) := by
  refine ⟨fun i => releaseCore_wf h,
    fun lockOk unlockOk i => clientRelease_wf h,
    fun lockOk unlockOk i => clientRelease_wf h,
    fun lockOk unlockOk i => clientDestroy_wf h,
    fun loader lockOk unlockOk i lat lon ip hfresh hok =>
      clientElevation_wf h hfresh hok⟩

theorem claim1_witness :
    Wf (⟨⟨[⟨0, 0, 0, 1, 1, 2, 2, 1, [1, 2, 3, 4]⟩], 1, 1, true⟩,
      [⟨some 0, intMin, intMin⟩]⟩ : State) ∧
    Wf (clientElevation (fun _ => .error .pathError) true true
      ⟨⟨[⟨0, 0, 0, 1, 1, 2, 2, 1, [1, 2, 3, 4]⟩], 1, 1, true⟩,
        [⟨some 0, intMin, intMin⟩]⟩ 0 5 5 true).1 := by
  have h : Wf (⟨⟨[⟨0, 0, 0, 1, 1, 2, 2, 1, [1, 2, 3, 4]⟩], 1, 1, true⟩,
      [⟨some 0, intMin, intMin⟩]⟩ : State) := by
    constructor
    · intro t ht
      fin_cases ht
      decide
    · intro c hc
      fin_cases hc
      decide
  exact ⟨h, (claim1 h).2.2.2.2 (fun _ => .error .pathError) true true 0 5 5
    true (fun p hp => Except.noConfusion hp) (fun hcon => by simp at hcon)⟩

end Turtle
